import Mathlib

/-!
Verification development for the translatable-content extraction pipeline
(`step1_extract.py`) and its companion language-tag counter
(`count_languages.py`).

The Python sources are shallowly embedded below.  Strings are Lean `String`s
manipulated through their character lists; Python's `str.strip`, `str.lower`,
decimal formatting of counters, and the regular-expression searches used by
the classifier are given explicit executable models.  The HTML tree produced
by the parser is modelled as an inductive node type, and the external
collaborators (the spaCy annotator, `lazy_pinyin`, `json.loads`/`json.dumps`)
are parameters of the pipeline, matching their role as external services.
-/

set_option maxRecDepth 10000

/-! ## Association lists modelling Python dict assignment and `dict.update` -/

def alookup {α : Type} : List (String × α) → String → Option α
  | [], _ => none
  | (k', v) :: rest, k => if k' = k then some v else alookup rest k

/-- Python `d[k] = v`: replace the value at the key when it is present
(keys of a dict are unique, so replacing the first occurrence is exact),
else append the new binding at the end. -/
def dinsert {α : Type} : List (String × α) → String → α → List (String × α)
  | [], k, v => [(k, v)]
  | (k', v') :: rest, k, v =>
    if k' = k then (k, v) :: rest else (k', v') :: dinsert rest k v

/-- Python `d.update(entries)`: repeated assignment in entry order. -/
def dupdate {α : Type} (m : List (String × α)) (entries : List (String × α)) :
    List (String × α) :=
  entries.foldl (fun acc p => dinsert acc p.1 p.2) m

def keysOf {α : Type} (m : List (String × α)) : List String := m.map (·.1)

theorem alookup_dinsert_self {α : Type} (m : List (String × α)) (k : String) (v : α) :
    alookup (dinsert m k v) k = some v := by
  induction m with
  | nil => simp [dinsert, alookup]
  | cons p rest ih =>
    by_cases hp : p.1 = k
    · simp [dinsert, hp, alookup]
    · simpa [dinsert, hp, alookup] using ih

theorem alookup_dinsert_ne {α : Type} (m : List (String × α)) (k k' : String) (v : α)
    (h : k' ≠ k) : alookup (dinsert m k v) k' = alookup m k' := by
  induction m with
  | nil => simp [dinsert, alookup, Ne.symm h]
  | cons p rest ih =>
    by_cases hp : p.1 = k
    · simp [dinsert, hp, alookup, Ne.symm h]
    · by_cases hp' : p.1 = k'
      · simp [dinsert, hp, alookup, hp', h]
      · simp [dinsert, hp, alookup, hp', ih]

theorem mem_dinsert {α : Type} {m : List (String × α)} {k : String} {v : α}
    {p : String × α} (h : p ∈ dinsert m k v) : p = (k, v) ∨ p ∈ m := by
  induction m with
  | nil => simpa [dinsert] using h
  | cons q rest ih =>
    by_cases hq : q.1 = k
    · simp only [dinsert, if_pos hq] at h
      rcases List.mem_cons.mp h with h' | h'
      · exact Or.inl h'
      · exact Or.inr (List.mem_cons_of_mem _ h')
    · simp only [dinsert, if_neg hq] at h
      rcases List.mem_cons.mp h with h' | h'
      · exact Or.inr (h' ▸ List.mem_cons_self _ _)
      · rcases ih h' with h'' | h''
        · exact Or.inl h''
        · exact Or.inr (List.mem_cons_of_mem _ h'')

theorem mem_dupdate {α : Type} {es : List (String × α)} {m : List (String × α)}
    {p : String × α} (h : p ∈ dupdate m es) : p ∈ es ∨ p ∈ m := by
  induction es generalizing m with
  | nil => exact Or.inr h
  | cons e rest ih =>
    rcases ih (m := dinsert m e.1 e.2) h with h' | h'
    · exact Or.inl (List.mem_cons_of_mem _ h')
    · rcases mem_dinsert h' with h'' | h''
      · exact Or.inl (h'' ▸ List.mem_cons_self _ _)
      · exact Or.inr h''

theorem alookup_dupdate_not_mem {α : Type} (es : List (String × α))
    (m : List (String × α)) (k : String) (h : k ∉ keysOf es) :
    alookup (dupdate m es) k = alookup m k := by
  induction es generalizing m with
  | nil => rfl
  | cons e rest ih =>
    have hk : k ≠ e.1 := by
      intro he
      exact h (by simp [keysOf, he])
    have hrest : k ∉ keysOf rest := by
      intro hm
      apply h
      simp only [keysOf, List.map_cons, List.mem_cons]
      exact Or.inr hm
    calc alookup (dupdate (dinsert m e.1 e.2) rest) k
        = alookup (dinsert m e.1 e.2) k := ih (dinsert m e.1 e.2) hrest
      _ = alookup m k := alookup_dinsert_ne _ _ _ _ hk

theorem alookup_dupdate_mem {α : Type} (es : List (String × α))
    (m : List (String × α)) (k : String) (v : α)
    (hnd : (keysOf es).Nodup) (h : (k, v) ∈ es) :
    alookup (dupdate m es) k = some v := by
  induction es generalizing m with
  | nil => cases h
  | cons e rest ih =>
    have hc : (e.1 :: keysOf rest).Nodup := hnd
    rcases List.mem_cons.mp h with he | he
    · subst he
      have hk : k ∉ keysOf rest := (List.nodup_cons.mp hc).1
      calc alookup (dupdate (dinsert m k v) rest) k
          = alookup (dinsert m k v) k := alookup_dupdate_not_mem _ _ _ hk
        _ = some v := alookup_dinsert_self _ _ _
    · exact ih (dinsert m e.1 e.2) (List.nodup_cons.mp hc).2 he

/-! ## Python `enumerate(xs, 1)` -/

def enum1 {α : Type} : Nat → List α → List (Nat × α)
  | _, [] => []
  | i, a :: as => (i, a) :: enum1 (i + 1) as

theorem mem_enum1 {α : Type} {p : Nat × α} :
    ∀ {s : Nat} {l : List α}, p ∈ enum1 s l → s ≤ p.1 ∧ p.1 < s + l.length ∧ p.2 ∈ l := by
  intro s l
  induction l generalizing s with
  | nil => intro h; cases h
  | cons a as ih =>
    intro h
    rcases List.mem_cons.mp h with h' | h'
    · subst h'
      exact ⟨Nat.le_refl _, by simp, List.mem_cons_self _ _⟩
    · rcases ih h' with ⟨h1, h2, h3⟩
      exact ⟨Nat.le_of_succ_le h1, by simpa [Nat.succ_add] using h2,
        List.mem_cons_of_mem _ h3⟩

theorem enum1_map_fst {α : Type} :
    ∀ (s : Nat) (l : List α), (enum1 s l).map (·.1) = List.range' s l.length := by
  intro s l
  induction l generalizing s with
  | nil => rfl
  | cons a as ih => simp [enum1, List.range'_succ, ih]

/-! ## Decimal formatting of the block counter (Python f-string `{n}`) -/

def digitChar10 (d : Nat) : Char := Char.ofNat (48 + d)

def natDigits (n : Nat) : List Char :=
  if _h : n < 10 then [digitChar10 n]
  else natDigits (n / 10) ++ [digitChar10 (n % 10)]
  decreasing_by exact Nat.div_lt_self (by omega) (by omega)

/-- Decimal formatting, via the fuel-based `Nat.toDigits` so that concrete
identifier strings reduce in the kernel; `toDigits_eq_natDigits` below
identifies it with the recursion above. -/
def natStr (n : Nat) : String := String.mk (Nat.toDigits 10 n)

def digitVal (c : Char) : Nat := c.toNat - 48

def parseDec (l : List Char) : Nat := l.foldl (fun a c => 10 * a + digitVal c) 0

theorem char_toNat_ofNat (n : Nat) (h : n < 0xD800) : (Char.ofNat n).toNat = n := by
  unfold Char.ofNat
  rw [dif_pos (Or.inl h)]
  rfl

theorem digitVal_digitChar10 (d : Nat) (h : d < 10) : digitVal (digitChar10 d) = d := by
  unfold digitVal digitChar10
  rw [char_toNat_ofNat _ (by omega)]
  omega

theorem parseDec_append_one (l : List Char) (c : Char) :
    parseDec (l ++ [c]) = 10 * parseDec l + digitVal c := by
  unfold parseDec
  rw [List.foldl_append]
  rfl

theorem parseDec_natDigits (n : Nat) : parseDec (natDigits n) = n := by
  induction n using Nat.strong_induction_on with
  | _ n ih =>
    by_cases h : n < 10
    · rw [natDigits, dif_pos h]
      show 10 * 0 + digitVal (digitChar10 n) = n
      rw [digitVal_digitChar10 _ h]
      omega
    · rw [natDigits, dif_neg h]
      rw [parseDec_append_one]
      rw [ih (n / 10) (Nat.div_lt_self (by omega) (by omega))]
      rw [digitVal_digitChar10 _ (Nat.mod_lt _ (by omega))]
      omega

theorem natDigits_inj {m n : Nat} (h : natDigits m = natDigits n) : m = n := by
  have := parseDec_natDigits m
  rw [h, parseDec_natDigits] at this
  exact this.symm

theorem digitChar_eq_digitChar10 (n : Nat) (h : n < 10) :
    Nat.digitChar n = digitChar10 n := by
  interval_cases n <;> rfl

theorem toDigitsCore_acc :
    ∀ (n : Nat), ∀ (fuel : Nat) (ds : List Char), n + 1 ≤ fuel →
      Nat.toDigitsCore 10 fuel n ds = natDigits n ++ ds := by
  intro n
  induction n using Nat.strong_induction_on with
  | _ n ih =>
    intro fuel ds hf
    cases fuel with
    | zero => omega
    | succ f =>
      rw [Nat.toDigitsCore]
      by_cases h : n < 10
      · have h0 : n / 10 = 0 := Nat.div_eq_of_lt h
        have hm : n % 10 = n := Nat.mod_eq_of_lt h
        rw [natDigits, dif_pos h]
        simp only [h0, hm, if_true, if_pos]
        rw [digitChar_eq_digitChar10 n h]
        rfl
      · have h0 : ¬(n / 10 = 0) := by
          intro he
          have := (Nat.div_eq_zero_iff (show 0 < 10 by omega)).mp he
          omega
        rw [if_neg h0]
        have hrec := ih (n / 10) (Nat.div_lt_self (by omega) (by omega)) f
          (Nat.digitChar (n % 10) :: ds) (by
            have := Nat.div_lt_self (show 0 < n by omega) (show 1 < 10 by omega)
            omega)
        rw [hrec]
        conv_rhs => rw [natDigits]
        rw [dif_neg h]
        rw [digitChar_eq_digitChar10 (n % 10) (Nat.mod_lt _ (by omega))]
        simp

theorem toDigits_eq_natDigits (n : Nat) : Nat.toDigits 10 n = natDigits n := by
  rw [Nat.toDigits, toDigitsCore_acc n (n + 1) [] (Nat.le_refl _)]
  simp

theorem natStr_data (n : Nat) : (natStr n).data = natDigits n := by
  show Nat.toDigits 10 n = natDigits n
  exact toDigits_eq_natDigits n

theorem natStr_inj {m n : Nat} (h : natStr m = natStr n) : m = n := by
  apply natDigits_inj
  rw [← natStr_data, ← natStr_data, h]

def isDigitCh (c : Char) : Prop := 48 ≤ c.toNat ∧ c.toNat ≤ 57

theorem natDigits_all_digits (n : Nat) : ∀ c ∈ natDigits n, isDigitCh c := by
  induction n using Nat.strong_induction_on with
  | _ n ih =>
    by_cases h : n < 10
    · rw [natDigits, dif_pos h]
      intro c hc
      simp at hc
      subst hc
      unfold isDigitCh digitChar10
      rw [char_toNat_ofNat _ (by omega)]
      omega
    · rw [natDigits, dif_neg h]
      intro c hc
      rcases List.mem_append.mp hc with h' | h'
      · exact ih (n / 10) (Nat.div_lt_self (by omega) (by omega)) c h'
      · simp at h'
        subst h'
        unfold isDigitCh digitChar10
        rw [char_toNat_ofNat _ (by omega)]
        have := Nat.mod_lt n (y := 10) (by omega)
        omega

theorem sep_not_digit : ¬isDigitCh '_' := by
  unfold isDigitCh
  decide

/-- All-digit prefixes before a common separator character agree. -/
theorem digits_sep_cancel (sep : Char) (hsep : ¬isDigitCh sep) :
    ∀ (l1 l2 x y : List Char), (∀ c ∈ l1, isDigitCh c) → (∀ c ∈ l2, isDigitCh c) →
      l1 ++ sep :: x = l2 ++ sep :: y → l1 = l2 ∧ x = y := by
  intro l1
  induction l1 with
  | nil =>
    intro l2 x y _ h2 he
    cases l2 with
    | nil =>
      simp at he
      exact ⟨rfl, he⟩
    | cons c l2' =>
      simp at he
      exact absurd (he.1 ▸ h2 c (List.mem_cons_self _ _)) hsep
  | cons c l1' ih =>
    intro l2 x y h1 h2 he
    cases l2 with
    | nil =>
      simp at he
      exact absurd (he.1 ▸ h1 c (List.mem_cons_self _ _)) hsep
    | cons c2 l2' =>
      simp only [List.cons_append, List.cons.injEq] at he
      rcases ih l2' x y (fun d hd => h1 d (List.mem_cons_of_mem _ hd))
        (fun d hd => h2 d (List.mem_cons_of_mem _ hd)) he.2 with ⟨ha, hb⟩
      exact ⟨by rw [he.1, ha], hb⟩

/-- An all-digit list never equals a list containing the separator. -/
theorem digits_ne_sep_suffix (sep : Char) (hsep : ¬isDigitCh sep)
    (l l2 x : List Char) (hl : ∀ c ∈ l, isDigitCh c) : l ≠ l2 ++ sep :: x := by
  intro he
  have : sep ∈ l := by
    rw [he]
    exact List.mem_append.mpr (Or.inr (List.mem_cons_self _ _))
  exact hsep (hl sep this)

/-! ## Models of Python string primitives

`str.lower` is modelled on the ASCII range (the only range exercised by the
program's key sets and attribute names); `str.strip` strips the ASCII
whitespace characters; `in` on strings is contiguous-substring search;
`str.startswith` is list-prefix testing. -/

def pyCharLower (c : Char) : Char :=
  if 65 ≤ c.toNat ∧ c.toNat ≤ 90 then Char.ofNat (c.toNat + 32) else c

def pyLower (s : String) : String := String.mk (s.data.map pyCharLower)

def isPySpace (c : Char) : Bool :=
  c.toNat = 32 || c.toNat = 9 || c.toNat = 10 || c.toNat = 13 || c.toNat = 11 || c.toNat = 12

def pyStrip (s : String) : String :=
  String.mk (((s.data.dropWhile isPySpace).reverse.dropWhile isPySpace).reverse)

def listContains : List Char → List Char → Bool
  | hay, pat =>
    pat.isPrefixOf hay ||
      (match hay with
       | [] => false
       | _ :: rest => listContains rest pat)

def strContains (hay pat : String) : Bool := listContains hay.data pat.data

def pyStartsWith (s p : String) : Bool := p.data.isPrefixOf s.data

theorem pyCharLower_not_upper (c : Char) :
    ¬(65 ≤ (pyCharLower c).toNat ∧ (pyCharLower c).toNat ≤ 90) := by
  unfold pyCharLower
  split
  · rename_i h
    rw [char_toNat_ofNat _ (by omega)]
    omega
  · rename_i h
    exact h

theorem pyLower_ne_of_upper_mem (s t : String) (c : Char) (hc : c ∈ t.data)
    (h65 : 65 ≤ c.toNat) (h90 : c.toNat ≤ 90) : pyLower s ≠ t := by
  intro he
  have hdata : (pyLower s).data = t.data := by rw [he]
  have hmem : c ∈ s.data.map pyCharLower := by
    have : (pyLower s).data = s.data.map pyCharLower := rfl
    rw [← this, hdata]
    exact hc
  rcases List.mem_map.mp hmem with ⟨d, _, hd⟩
  exact pyCharLower_not_upper d (hd ▸ ⟨h65, h90⟩)

/-! ## Character classes used by the program's regular expressions

`\p{L}` is modelled over ASCII letters plus the non-Latin ranges that the
program's own patterns name (CJK unified ideographs, Arabic, Cyrillic,
Greek); `[\p{P}\p{S}\d_]` over ASCII punctuation/symbol ranges plus digits
(`_` lies in the 91–96 block). -/

def isAsciiLetter (c : Char) : Bool :=
  (65 ≤ c.toNat && c.toNat ≤ 90) || (97 ≤ c.toNat && c.toNat ≤ 122)

def isLetterChar (c : Char) : Bool :=
  isAsciiLetter c ||
  (0x4E00 ≤ c.toNat && c.toNat ≤ 0x9FFF) ||
  (0x0600 ≤ c.toNat && c.toNat ≤ 0x06FF) ||
  (0x0400 ≤ c.toNat && c.toNat ≤ 0x04FF) ||
  (0x0370 ≤ c.toNat && c.toNat ≤ 0x03FF)

def isDigitChar (c : Char) : Bool := 48 ≤ c.toNat && c.toNat ≤ 57

def isWordChar (c : Char) : Bool := isLetterChar c || isDigitChar c || c = '_'

def isPunctSymbolChar (c : Char) : Bool :=
  (33 ≤ c.toNat && c.toNat ≤ 47) || (58 ≤ c.toNat && c.toNat ≤ 64) ||
  (91 ≤ c.toNat && c.toNat ≤ 96) || (123 ≤ c.toNat && c.toNat ≤ 126) ||
  isDigitChar c

/-! ## Helper predicates of `step1_extract.py` -/

/-- `is_pure_symbol`: `not re.search(r'[A-Za-z]', text)`. -/
def is_pure_symbol (text : String) : Bool := !text.data.any isAsciiLetter

/-- `contains_chinese`: `re.search(r'[一-鿿]', text) is not None`. -/
def contains_chinese (text : String) : Bool :=
  text.data.any (fun c => 0x4E00 ≤ c.toNat && c.toNat ≤ 0x9FFF)

/-- `is_exception_language`: Chinese characters, or characters in the
Arabic (0600–06FF), Cyrillic (0400–04FF) or Greek (0370–03FF) blocks. -/
def is_exception_language (text : String) : Bool :=
  contains_chinese text ||
    text.data.any (fun c =>
      (0x0600 ≤ c.toNat && c.toNat ≤ 0x06FF) ||
      (0x0400 ≤ c.toNat && c.toNat ≤ 0x04FF) ||
      (0x0370 ≤ c.toNat && c.toNat ≤ 0x03FF))

/-- Maximal runs of word characters (the tokens delimited by `\b`-relevant
boundaries).  `re.search(r'\b\p{L}{3,}\b', s)` succeeds exactly when some
maximal word-character run consists solely of letters and has length ≥ 3:
the run of letters matched by `\p{L}{3,}` must be flanked on both sides by
a non-word character or a string end, and letters, digits and `_` are all
word characters. -/
def wordTokensAux : List Char → List Char → List (List Char)
  | [], acc => if acc.isEmpty then [] else [acc.reverse]
  | c :: rest, acc =>
    if isWordChar c then wordTokensAux rest (c :: acc)
    else if acc.isEmpty then wordTokensAux rest []
    else acc.reverse :: wordTokensAux rest []

def wordTokens (l : List Char) : List (List Char) := wordTokensAux l []

/-- `has_real_words`: `re.search(r'\b\p{L}{3,}\b', text, re.UNICODE) is not None`. -/
def has_real_words (text : String) : Bool :=
  (wordTokens text.data).any (fun tok => 3 ≤ tok.length && tok.all isLetterChar)

/-- `is_symbol_heavy`: no `\b\p{L}{3,}\b` word, and at least one
`[\p{P}\p{S}\d_]` character (`len(re.findall(...)) > 0`). -/
def is_symbol_heavy (text : String) : Bool :=
  if has_real_words text then false
  else 0 < (text.data.filter isPunctSymbolChar).length

def isEqOpChar (c : Char) : Bool :=
  c = '=' || c = '+' || c = '-' || c = '*' || c = '/' || c = '^'

def isArithOpChar (c : Char) : Bool := c = '+' || c = '-' || c = '*' || c = '/'

/-- Search for `\w+\s*[=+\-*/^]\s*\S+` (the "simple equations" alternative):
a match exists iff some word character is followed, after optional
whitespace, by an operator and then, after optional whitespace, by at
least one non-whitespace character. -/
def scanEquation : List Char → Bool
  | [] => false
  | c :: rest =>
    (isWordChar c &&
      (match rest.dropWhile isPySpace with
       | o :: r2 => isEqOpChar o && !(r2.dropWhile isPySpace).isEmpty
       | [] => false)) ||
    scanEquation rest

/-- Search for `\d+[\+\-\*/]\d+` (the "arithmetic operations" alternative). -/
def scanArith : List Char → Bool
  | a :: b :: rest =>
    (isDigitChar a && isArithOpChar b &&
      (match rest with | d :: _ => isDigitChar d | [] => false)) ||
    scanArith (b :: rest)
  | _ => false

/-- Search for `[a-zA-Z]+\^?\d+` (the "exponents" alternative): a match
exists iff some ASCII letter is immediately followed by a digit, or by
`^` and then a digit. -/
def scanExp : List Char → Bool
  | [] => false
  | a :: rest =>
    (isAsciiLetter a &&
      (match rest with
       | b :: rest2 =>
         isDigitChar b ||
           (b = '^' && (match rest2 with | d :: _ => isDigitChar d | [] => false))
       | [] => false)) ||
    scanExp rest

/-- After an opening `$`: is there a closing `$` with no newline before it
(`.` does not match a newline)? -/
def dollarClose : List Char → Bool
  | [] => false
  | c :: rest => c = '$' || (!(c = '\n') && dollarClose rest)

/-- Search for `\$.*?\$`. -/
def scanDollar : List Char → Bool
  | [] => false
  | c :: rest => (c = '$' && dollarClose rest) || scanDollar rest

/-- After an opening `\(`: is there a closing `\)` with no newline before it? -/
def parenClose : List Char → Bool
  | c1 :: c2 :: rest => (c1 = '\\' && c2 = ')') || (!(c1 = '\n') && parenClose (c2 :: rest))
  | _ => false

/-- Search for `\\\(.*?\\\)`. -/
def scanParen : List Char → Bool
  | c1 :: c2 :: rest => (c1 = '\\' && c2 = '(' && parenClose rest) || scanParen (c2 :: rest)
  | _ => false

/-- The LaTeX-markup pattern `\$.*?\$|\\\(.*?\\\)` (also reused by
`has_math_html_markup` on the parent's text). -/
def latexSearch (l : List Char) : Bool := scanDollar l || scanParen l

/-- `re.search(equation_pattern, text, re.VERBOSE)` over the four
alternatives of `is_math_fragment`'s `equation_pattern`. -/
def matchesEquationPattern (text : String) : Bool :=
  scanEquation text.data || scanArith text.data || scanExp text.data ||
    latexSearch text.data

/-- `is_math_fragment`: `(has_math and not has_real_words(text)) or is_symbol_heavy(text)`. -/
def is_math_fragment (text : String) : Bool :=
  (matchesEquationPattern text && !has_real_words text) || is_symbol_heavy text

/-! ## Constant sets of `step1_extract.py` -/

def TRANSLATABLE_TAGS : List String :=
  ["p", "span", "div", "h1", "h2", "h3", "h4", "h5", "h6",
   "label", "button", "li", "td", "th", "a", "strong", "em",
   "b", "i", "caption", "summary", "figcaption", "option", "optgroup",
   "legend", "mark", "output", "details", "time"]

def TRANSLATABLE_ATTRS : List String :=
  ["alt", "title", "placeholder", "aria-label", "aria-placeholder",
   "aria-valuetext", "aria-roledescription", "value",
   "data-i18n", "data-caption", "data-title", "data-tooltip",
   "data-label", "data-error"]

def SEO_META_NAME_FIELDS : List String :=
  ["description", "keywords", "robots", "author", "viewport", "theme-color"]

def SEO_META_PROPERTY_FIELDS : List String :=
  ["og:title", "og:description", "og:image", "og:url",
   "twitter:title", "twitter:description", "twitter:image", "twitter:card"]

def TRANSLATABLE_JSONLD_KEYS : List String :=
  ["name", "description", "headline", "caption",
   "alternateName", "summary", "title", "about"]

def SKIP_PARENTS : List String :=
  ["script", "style", "code", "pre", "noscript", "template", "svg", "canvas",
   "frameset", "frame", "noframes", "object", "embed", "base", "map"]

def BLOCKED_ATTRS : List String :=
  ["accept", "align", "autocomplete", "bgcolor", "charset", "class", "content",
   "dir", "download", "href", "id", "lang", "name", "rel", "src", "style", "type"]

def JSONLD_EXCLUDE_KEYS : List String :=
  ["duration", "uploadDate", "embedUrl", "contentUrl", "thumbnailUrl"]

def EXCLUDED_META_NAMES : List String := ["viewport"]

def EXCLUDED_META_PROPERTIES : List String := ["og:url"]

/-! ## The translatability classifier -/

/-- The data of one ancestor element, as the classifier reads it:
its tag name, its attributes, and the concatenated text of its subtree
(BeautifulSoup's `.text`, read at classification time). -/
structure ElemView where
  tag : String
  attrs : List (String × String)
  innerText : String
deriving DecidableEq

/-- `tag.get(k, "")` on an attribute dict. -/
def attrGet (attrs : List (String × String)) (k : String) : String :=
  (alookup attrs k).getD ""

/-- Whitespace splitting used by BeautifulSoup for the multi-valued
`class` attribute. -/
def splitWsAux : List Char → List Char → List String
  | [], acc => if acc.isEmpty then [] else [String.mk acc.reverse]
  | c :: rest, acc =>
    if isPySpace c then
      if acc.isEmpty then splitWsAux rest []
      else String.mk acc.reverse :: splitWsAux rest []
    else splitWsAux rest (c :: acc)

/-- `tag.get('class', [])`: the class attribute as a whitespace-split list. -/
def pyGetClasses (attrs : List (String × String)) : List String :=
  match alookup attrs "class" with
  | none => []
  | some v => splitWsAux v.data []

/-- `has_math_html_markup(element)`: reads `element.parent`; the ancestor
list is innermost-first, so the parent is its head.  (For parsed string
nodes the parent always exists — the document root at worst.) -/
def has_math_html_markup (ancs : List ElemView) : Bool :=
  match ancs with
  | [] => false
  | parent :: _ =>
    parent.tag = "math" || latexSearch parent.innerText.data ||
      (["math", "equation", "formula"].any (fun cls => (pyGetClasses parent.attrs).contains cls))

/-- The inheritance walk of `is_translatable_text` (lines 155–163):
the nearest ancestor whose lowercased `translate` attribute is `yes` or
`no` decides; absence of any such ancestor yields `none`. -/
def findTranslateOverride : List ElemView → Option String
  | [] => none
  | e :: rest =>
    let t := pyLower (attrGet e.attrs "translate")
    if t = "yes" || t = "no" then some t else findTranslateOverride rest

/-- The math/symbol content rejection of `is_translatable_text`
(lines 169–175): fires when the text is not exception-language and is
pure-symbol, a math fragment, or inside math HTML markup. -/
def contentReject (ancs : List ElemView) (text : String) : Bool :=
  !is_exception_language text &&
    (is_pure_symbol text || is_math_fragment text || has_math_html_markup ancs)

/-- `is_translatable_text(tag)`.  `ancs` is the ancestor chain of the
string node, innermost (the parent) first; `raw` the node's text;
`isComment` models `isinstance(tag, Comment)`. -/
def is_translatable_text (ancs : List ElemView) (raw : String) (isComment : Bool) : Bool :=
  let translate_override := findTranslateOverride ancs
  let text := pyStrip raw
  if text = "" then false
  else if contentReject ancs text then false
  else if translate_override = some "no" then false
  else
    let default_translatable :=
      match ancs with
      | parent :: _ =>
        TRANSLATABLE_TAGS.contains parent.tag &&
          !(SKIP_PARENTS.contains parent.tag) && !isComment
      | [] => false
    match translate_override with
    | none => default_translatable
    | some o => o = "yes"

/-! ## Claim C4: the mathematical-fragment rule -/

/-- Spec-side notion for C4: the text contains a run of three or more
consecutive letters (not necessarily delimited by word boundaries). -/
def hasLetterRun3 : List Char → Bool
  | a :: b :: c :: rest =>
    (isLetterChar a && isLetterChar b && isLetterChar c) || hasLetterRun3 (b :: c :: rest)
  | _ => false

/-- C4, counterexample: the fragment `"abc1"` contains the run `abc` of
three letters, is not exception-language, yet `is_math_fragment` holds
(`\b\p{L}{3,}\b` needs word boundaries, and the digit after `abc` removes
the closing boundary), so the classifier rejects it on the math rule even
under a whitelisted parent. -/
theorem c4_math_rule_counterexample :
    hasLetterRun3 "abc1".data = true ∧
    is_exception_language "abc1" = false ∧
    is_math_fragment "abc1" = true ∧
    is_translatable_text [⟨"p", [], "abc1"⟩] "abc1" false = false := by
  refine ⟨by decide, by decide, by decide, by decide⟩

/-- C4, amended: the mathematical-fragment rule rejects a fragment only
when its text matches the equation pattern or is symbol-heavy, and in
either case the text contains no word-boundary-delimited word of three or
more letters (`has_real_words`); in particular a fragment whose text has
such a standalone word is never rejected by this rule. -/
theorem c4_math_rule (text : String) :
    (is_math_fragment text = true →
      has_real_words text = false ∧
        (matchesEquationPattern text = true ∨ is_symbol_heavy text = true)) ∧
    (has_real_words text = true → is_math_fragment text = false) := by
  constructor
  · intro h
    by_cases hw : has_real_words text = true
    · rw [is_math_fragment, is_symbol_heavy, if_pos hw, hw] at h
      simp at h
    · refine ⟨by simpa using hw, ?_⟩
      rw [is_math_fragment] at h
      rcases Bool.or_eq_true_iff.mp h with h' | h'
      · exact Or.inl (Bool.and_eq_true_iff.mp h').1
      · exact Or.inr h'
  · intro hw
    rw [is_math_fragment, is_symbol_heavy, if_pos hw, hw]
    simp

/-- C4, witness: the amended theorem applied at `"2+2=4"` (rejected, no
real word, matches the pattern) and at `"Hello world"` (has a real word,
hence not rejected). -/
theorem c4_math_rule_witness :
    (has_real_words "2+2=4" = false ∧
      (matchesEquationPattern "2+2=4" = true ∨ is_symbol_heavy "2+2=4" = true)) ∧
    is_math_fragment "Hello world" = false :=
  ⟨(c4_math_rule "2+2=4").1 (by decide), (c4_math_rule "Hello world").2 (by decide)⟩

/-! ## Claim C7: the pure-symbol rule and exception languages -/

/-- C7: a fragment whose (stripped) text has no `[A-Za-z]` character is
rejected by the classifier unless the text is exception-language; when the
text is exception-language the symbol/math rejection never fires; and the
fragment `"北京"` is pure-symbol yet accepted under a whitelisted parent. -/
theorem c7_pure_symbol_rule :
    (∀ (ancs : List ElemView) (raw : String) (isComment : Bool),
      is_pure_symbol (pyStrip raw) = true →
      is_exception_language (pyStrip raw) = false →
      is_translatable_text ancs raw isComment = false) ∧
    (∀ (ancs : List ElemView) (text : String),
      is_exception_language text = true → contentReject ancs text = false) ∧
    (is_pure_symbol "北京" = true ∧ is_exception_language "北京" = true ∧
      is_translatable_text [⟨"p", [], "北京"⟩] "北京" false = true) := by
  refine ⟨?_, ?_, by decide, by decide, by decide⟩
  · intro ancs raw isComment hpure hexc
    rw [is_translatable_text.eq_def]
    by_cases hne : pyStrip raw = ""
    · simp [hne]
    · have hcr : contentReject ancs (pyStrip raw) = true := by
        rw [contentReject, hexc, hpure]
        simp
      simp [hne, hcr]
  · intro ancs text hexc
    rw [contentReject, hexc]
    simp

/-- C7, witness: the rejection branch applied at the concrete pure-symbol
fragment `"!!!"` under a whitelisted parent. -/
theorem c7_pure_symbol_rule_witness :
    is_translatable_text [⟨"p", [], "!!!"⟩] "!!!" false = false :=
  c7_pure_symbol_rule.1 [⟨"p", [], "!!!"⟩] "!!!" false (by decide) (by decide)

/-! ## Claim C5: the JSON-LD key filter -/

/-- The key filter of `extract_from_jsonld` (lines 248–253), exactly as the
code tests it: the lowercased key is checked against the (mixed-case!)
`JSONLD_EXCLUDE_KEYS` and `TRANSLATABLE_JSONLD_KEYS` literals, then the
`@`-prefix and `url`/`date`/`time`/`type` substring heuristics. -/
def jsonldKeyMatches (key : String) : Bool :=
  let key_lc := pyLower key
  !(JSONLD_EXCLUDE_KEYS.contains key_lc) &&
    (TRANSLATABLE_JSONLD_KEYS.contains key_lc ||
      (!(pyStartsWith key_lc "@") &&
        (["url", "date", "time", "type"].all (fun x => !(strContains key_lc x)))))

def SPEC_JSONLD_EXCLUDE : List String :=
  ["duration", "uploaddate", "embedurl", "contenturl", "thumbnailurl"]

def SPEC_JSONLD_TRANSLATABLE : List String :=
  ["name", "description", "headline", "caption", "alternatename",
   "summary", "title", "about"]

/-- C5's condition as the claim words it: `lowercase(k)` is not in the
(lowercase) exclusion set, and `lowercase(k)` is in the (lowercase)
translatable-key set or (`k` does not start with `@` and `lowercase(k)`
contains none of `url`, `date`, `time`, `type`). -/
def specJsonldKeyMatches (key : String) : Bool :=
  let l := pyLower key
  !(SPEC_JSONLD_EXCLUDE.contains l) &&
    (SPEC_JSONLD_TRANSLATABLE.contains l ||
      (!(pyStartsWith key "@") &&
        (["url", "date", "time", "type"].all (fun x => !(strContains l x)))))

theorem pyCharLower_at_iff (c : Char) : pyCharLower c = '@' ↔ c = '@' := by
  constructor
  · intro h
    unfold pyCharLower at h
    split at h
    · rename_i hr
      have := congrArg Char.toNat h
      rw [char_toNat_ofNat _ (by omega)] at this
      have h64 : ('@' : Char).toNat = 64 := by decide
      omega
    · exact h
  · intro h
    subst h
    decide

theorem pyLower_startsWith_at (key : String) :
    pyStartsWith (pyLower key) "@" = pyStartsWith key "@" := by
  show List.isPrefixOf ['@'] (key.data.map pyCharLower) = List.isPrefixOf ['@'] key.data
  cases key.data with
  | nil => rfl
  | cons c rest =>
    show ('@' == pyCharLower c && List.isPrefixOf [] (rest.map pyCharLower)) =
      ('@' == c && List.isPrefixOf [] rest)
    have : ('@' = pyCharLower c) ↔ ('@' = c) := by
      rw [eq_comm, pyCharLower_at_iff, eq_comm]
    simp [List.isPrefixOf, beq_iff_eq, this]

theorem jsonldKeyMatches_eq_spec (key : String) :
    jsonldKeyMatches key = specJsonldKeyMatches key := by
  have hD : pyLower key ≠ "uploadDate" :=
    pyLower_ne_of_upper_mem key _ 'D' (by decide) (by decide) (by decide)
  have hU1 : pyLower key ≠ "embedUrl" :=
    pyLower_ne_of_upper_mem key _ 'U' (by decide) (by decide) (by decide)
  have hU2 : pyLower key ≠ "contentUrl" :=
    pyLower_ne_of_upper_mem key _ 'U' (by decide) (by decide) (by decide)
  have hU3 : pyLower key ≠ "thumbnailUrl" :=
    pyLower_ne_of_upper_mem key _ 'U' (by decide) (by decide) (by decide)
  have hN : pyLower key ≠ "alternateName" :=
    pyLower_ne_of_upper_mem key _ 'N' (by decide) (by decide) (by decide)
  simp only [jsonldKeyMatches, specJsonldKeyMatches]
  by_cases h1 : pyLower key = "uploaddate"
  · rw [h1]
    have hspec : (!SPEC_JSONLD_EXCLUDE.contains "uploaddate") = false := by decide
    rw [hspec, Bool.false_and]
    decide
  by_cases h2 : pyLower key = "embedurl"
  · rw [h2]
    have hspec : (!SPEC_JSONLD_EXCLUDE.contains "embedurl") = false := by decide
    rw [hspec, Bool.false_and]
    decide
  by_cases h3 : pyLower key = "contenturl"
  · rw [h3]
    have hspec : (!SPEC_JSONLD_EXCLUDE.contains "contenturl") = false := by decide
    rw [hspec, Bool.false_and]
    decide
  by_cases h4 : pyLower key = "thumbnailurl"
  · rw [h4]
    have hspec : (!SPEC_JSONLD_EXCLUDE.contains "thumbnailurl") = false := by decide
    rw [hspec, Bool.false_and]
    decide
  by_cases h5 : pyLower key = "alternatename"
  · rw [h5, ← pyLower_startsWith_at key, h5]
    have ha : TRANSLATABLE_JSONLD_KEYS.contains "alternatename" = false := by decide
    have hb : SPEC_JSONLD_TRANSLATABLE.contains "alternatename" = true := by decide
    rw [ha, hb]
    decide
  · rw [← pyLower_startsWith_at key]
    have e1 : JSONLD_EXCLUDE_KEYS.contains (pyLower key) =
        SPEC_JSONLD_EXCLUDE.contains (pyLower key) := by
      have hiff : (pyLower key ∈ JSONLD_EXCLUDE_KEYS) ↔ (pyLower key ∈ SPEC_JSONLD_EXCLUDE) := by
        simp [JSONLD_EXCLUDE_KEYS, SPEC_JSONLD_EXCLUDE, hD, hU1, hU2, hU3, h1, h2, h3, h4]
      simp only [List.contains, List.elem_eq_mem]
      exact decide_eq_decide.mpr hiff
    have e2 : TRANSLATABLE_JSONLD_KEYS.contains (pyLower key) =
        SPEC_JSONLD_TRANSLATABLE.contains (pyLower key) := by
      have hiff : (pyLower key ∈ TRANSLATABLE_JSONLD_KEYS) ↔
          (pyLower key ∈ SPEC_JSONLD_TRANSLATABLE) := by
        simp [TRANSLATABLE_JSONLD_KEYS, SPEC_JSONLD_TRANSLATABLE, hN, h5]
      simp only [List.contains, List.elem_eq_mem]
      exact decide_eq_decide.mpr hiff
    rw [e1, e2]

/-! ## Identifier scheme -/

def blockId (n : Nat) : String := "BLOCK_" ++ natStr n

def sentKey (i : Nat) : String := "S" ++ natStr i

def wordKey (i : Nat) : String := "W" ++ natStr i

theorem strData_append (a b : String) : (a ++ b).data = a.data ++ b.data := rfl

theorem strData_inj {a b : String} (h : a.data = b.data) : a = b := by
  cases a
  cases b
  simp only at h
  rw [h]

theorem blockId_inj {m n : Nat} (h : blockId m = blockId n) : m = n := by
  apply natDigits_inj
  have hd := congrArg String.data h
  simp only [blockId, strData_append, natStr_data] at hd
  exact List.append_cancel_left hd

/-- Two flat-map or structured-map keys with different block numbers differ,
whatever follows the separating underscore: the decimal digits before the
first `_` determine the block number. -/
theorem blockId_sep_cancel {m n : Nat} {x y : String}
    (h : blockId m ++ "_" ++ x = blockId n ++ "_" ++ y) : m = n ∧ x = y := by
  have hd := congrArg String.data h
  simp only [blockId, strData_append, natStr_data, List.append_assoc] at hd
  have hd' := List.append_cancel_left hd
  have hsep := digits_sep_cancel '_' sep_not_digit (natDigits m) (natDigits n) x.data y.data
    (natDigits_all_digits m) (natDigits_all_digits n) (by simpa using hd')
  exact ⟨natDigits_inj hsep.1, strData_inj hsep.2⟩

theorem sentKey_inj {i j : Nat} (h : sentKey i = sentKey j) : i = j := by
  apply natDigits_inj
  have hd := congrArg String.data h
  simp only [sentKey, strData_append, natStr_data] at hd
  exact List.append_cancel_left hd

theorem wordKey_inj {i j : Nat} (h : wordKey i = wordKey j) : i = j := by
  apply natDigits_inj
  have hd := congrArg String.data h
  simp only [wordKey, strData_append, natStr_data] at hd
  exact List.append_cancel_left hd

/-- A bare sentence key is never a sentence key followed by more id text. -/
theorem sentKey_ne_sep {i i' : Nat} {u : String} :
    sentKey i ≠ sentKey i' ++ "_" ++ u := by
  intro h
  have hd := congrArg String.data h
  simp only [sentKey, strData_append, natStr_data, List.append_assoc] at hd
  have hd' := List.append_cancel_left hd
  exact digits_ne_sep_suffix '_' sep_not_digit _ _ _ (natDigits_all_digits i)
    (by simpa using hd')

theorem sentKey_sep_cancel {i j : Nat} {u v : String}
    (h : sentKey i ++ "_" ++ u = sentKey j ++ "_" ++ v) : i = j ∧ u = v := by
  have hd := congrArg String.data h
  simp only [sentKey, strData_append, natStr_data, List.append_assoc] at hd
  have hd' := List.append_cancel_left hd
  have hsep := digits_sep_cancel '_' sep_not_digit (natDigits i) (natDigits j) u.data v.data
    (natDigits_all_digits i) (natDigits_all_digits j) (by simpa using hd')
  exact ⟨natDigits_inj hsep.1, strData_inj hsep.2⟩

/-! ## The annotation service and block structuring -/

/-- One token as the annotation service returns it: surface text,
part-of-speech tag, and entity type (`""` when absent, mirroring
spaCy's `token.ent_type_`). -/
structure SpacyToken where
  text : String
  pos : String
  ent : String
deriving DecidableEq

/-- One segmented sentence (`doc.sents` entry): its text and its tokens. -/
structure SpacySentence where
  text : String
  tokens : List SpacyToken
deriving DecidableEq

/-- The external annotator: resolves text to segmented sentences.  The
language detection and model routing of
`process_text_with_language_detection` only select which model produces
this segmentation, so the composite is modelled as one function. -/
def Annotator : Type := String → List SpacySentence

structure Word where
  text : String
  pos : String
  ent : Option String
  pinyin : Option String
deriving DecidableEq

structure SentEntry where
  text : String
  words : List (String × Word)
deriving DecidableEq

/-- The context tag stored with a block in the structured map:
`{"tag": ...}`, `{"attr": ...}`, `{"meta": ...}` or `{"jsonld": ...}`. -/
inductive BlockContext where
  | tag (name : String)
  | attr (name : String)
  | meta (name : String)
  | jsonld (key : String)
deriving DecidableEq

structure BlockEntry where
  context : BlockContext
  tokens : List (String × SentEntry)
deriving DecidableEq

/-- The word record built for one token (lines 233–238): `token.ent_type_
or None` and the pinyin transliteration for Chinese tokens, where `piny`
models `" ".join(lazy_pinyin(...))`. -/
def mkWord (piny : String → String) (tok : SpacyToken) : Word :=
  { text := tok.text
    pos := tok.pos
    ent := if tok.ent = "" then none else some tok.ent
    pinyin := if contains_chinese tok.text then some (piny tok.text) else none }

/-- The inner loop of `process_text_block` over `enumerate(sent, 1)`:
`W{n}` keyed word records. -/
def mkWords (piny : String → String) : Nat → List SpacyToken → List (String × Word)
  | _, [] => []
  | j, t :: rest => (wordKey j, mkWord piny t) :: mkWords piny (j + 1) rest

/-- The flat-map entries the inner loop adds: `{sentence_id}_W{n} → token text`. -/
def wordFlats (sid : String) : Nat → List SpacyToken → List (String × String)
  | _, [] => []
  | j, t :: rest => (sid ++ "_" ++ wordKey j, t.text) :: wordFlats sid (j + 1) rest

/-- The outer loop of `process_text_block` over `enumerate(doc.sents, 1)`,
accumulating the structured entries, the flat entries (sentence entry then
its word entries, in visit order) and the `(sentence_id, sentence_text)`
pairs. -/
def ptbAux (piny : String → String) (block_id : String) :
    Nat → List SpacySentence →
      List (String × SentEntry) × List (String × String) × List (String × String)
  | _, [] => ([], [], [])
  | i, s :: rest =>
    let r := ptbAux piny block_id (i + 1) rest
    ((sentKey i, { text := s.text, words := mkWords piny 1 s.tokens }) :: r.1,
     ((block_id ++ "_" ++ sentKey i, s.text) ::
        wordFlats (block_id ++ "_" ++ sentKey i) 1 s.tokens) ++ r.2.1,
     (block_id ++ "_" ++ sentKey i, s.text) :: r.2.2)

/-- `process_text_block(block_id, text, nlp)` (lines 214–240): returns the
structured per-block map, the flat entries, and the ordered sentence
id/text pairs. -/
def process_text_block (nlp : Annotator) (piny : String → String)
    (block_id : String) (text : String) :
    List (String × SentEntry) × List (String × String) × List (String × String) :=
  ptbAux piny block_id 1 (nlp text)

theorem strAppend_assoc (a b c : String) : a ++ b ++ c = a ++ (b ++ c) :=
  strData_inj (by simp [strData_append])

theorem strAppend_cancel_left {a b c : String} (h : a ++ b = a ++ c) : b = c := by
  have hd := congrArg String.data h
  simp only [strData_append] at hd
  exact strData_inj (List.append_cancel_left hd)

theorem strAppend_sep_ne (x u : String) : x ≠ x ++ "_" ++ u := by
  intro h
  have hd : x.data = x.data ++ ('_' :: u.data) := by
    conv_lhs => rw [h]
    show (x.data ++ ('_' :: List.nil)) ++ u.data = _
    simp
  have hlen := congrArg List.length hd
  simp at hlen

theorem alookup_append_of_some {α : Type} {l l' : List (String × α)} {k : String} {v : α}
    (h : alookup l k = some v) : alookup (l ++ l') k = some v := by
  induction l with
  | nil => cases h
  | cons p rest ih =>
    by_cases hp : p.1 = k
    · simp only [alookup, if_pos hp] at h
      simpa [alookup, hp] using h
    · simp only [alookup, if_neg hp] at h
      simpa [alookup, hp] using ih h

theorem alookup_append_not_mem {α : Type} {l : List (String × α)} {k : String}
    (l' : List (String × α)) (h : k ∉ keysOf l) :
    alookup (l ++ l') k = alookup l' k := by
  induction l with
  | nil => rfl
  | cons p rest ih =>
    have hp : p.1 ≠ k := by
      intro he
      exact h (by simp [keysOf, he])
    have hrest : k ∉ keysOf rest := by
      intro hm
      apply h
      simp only [keysOf, List.map_cons, List.mem_cons]
      exact Or.inr hm
    simpa [alookup, hp] using ih hrest

theorem alookup_not_mem {α : Type} {l : List (String × α)} {k : String}
    (h : k ∉ keysOf l) : alookup l k = none := by
  induction l with
  | nil => rfl
  | cons p rest ih =>
    have hp : p.1 ≠ k := by
      intro he
      exact h (by simp [keysOf, he])
    have hrest : k ∉ keysOf rest := by
      intro hm
      apply h
      simp only [keysOf, List.map_cons, List.mem_cons]
      exact Or.inr hm
    simpa [alookup, hp] using ih hrest

/-! ### Shape lemmas about the identifiers a block generates -/

theorem regroup_key (x s w : String) : x ++ s ++ "_" ++ w = x ++ (s ++ "_" ++ w) := by
  rw [strAppend_assoc (x ++ s), strAppend_assoc x s, ← strAppend_assoc s]

theorem key_s_ne_key_s {bid : String} {i i' : Nat} (h : i ≠ i') :
    bid ++ "_" ++ sentKey i ≠ bid ++ "_" ++ sentKey i' := by
  intro he
  exact h (sentKey_inj (strAppend_cancel_left (a := bid ++ "_") he))

theorem key_s_ne_key_w {bid : String} {i i' j : Nat} :
    bid ++ "_" ++ sentKey i ≠ bid ++ "_" ++ sentKey i' ++ "_" ++ wordKey j := by
  intro he
  rw [regroup_key (bid ++ "_") (sentKey i') (wordKey j)] at he
  exact sentKey_ne_sep (strAppend_cancel_left (a := bid ++ "_") he)

theorem key_w_cancel {bid : String} {i i' j j' : Nat}
    (he : bid ++ "_" ++ sentKey i ++ "_" ++ wordKey j =
      bid ++ "_" ++ sentKey i' ++ "_" ++ wordKey j') : i = i' ∧ j = j' := by
  rw [regroup_key (bid ++ "_") (sentKey i) (wordKey j),
    regroup_key (bid ++ "_") (sentKey i') (wordKey j')] at he
  have h2 := sentKey_sep_cancel (strAppend_cancel_left (a := bid ++ "_") he)
  exact ⟨h2.1, wordKey_inj h2.2⟩

theorem mem_mkWords {piny : String → String} {toks : List SpacyToken} :
    ∀ {j0 : Nat} {p : String × Word}, p ∈ mkWords piny j0 toks →
      ∃ j t, j0 ≤ j ∧ p.1 = wordKey j ∧ t ∈ toks ∧ p.2 = mkWord piny t := by
  induction toks with
  | nil => intro j0 p h; cases h
  | cons t rest ih =>
    intro j0 p h
    rcases List.mem_cons.mp h with h' | h'
    · exact ⟨j0, t, Nat.le_refl _, by rw [h'], List.mem_cons_self _ _, by rw [h']⟩
    · rcases ih h' with ⟨j, t', hj, hk, ht, hw⟩
      exact ⟨j, t', Nat.le_of_succ_le hj, hk, List.mem_cons_of_mem _ ht, hw⟩

theorem mem_wordFlats_keys {sid : String} {toks : List SpacyToken} :
    ∀ {j0 : Nat} {k : String}, k ∈ keysOf (wordFlats sid j0 toks) →
      ∃ j, j0 ≤ j ∧ k = sid ++ "_" ++ wordKey j := by
  induction toks with
  | nil => intro j0 k h; cases h
  | cons t rest ih =>
    intro j0 k h
    rcases List.mem_cons.mp h with h' | h'
    · exact ⟨j0, Nat.le_refl _, h'⟩
    · rcases ih h' with ⟨j, hj, hk⟩
      exact ⟨j, Nat.le_of_succ_le hj, hk⟩

theorem mkWords_keys_nodup (piny : String → String) (toks : List SpacyToken) :
    ∀ j0 : Nat, (keysOf (mkWords piny j0 toks)).Nodup := by
  induction toks with
  | nil => intro j0; exact List.nodup_nil
  | cons t rest ih =>
    intro j0
    refine List.nodup_cons.mpr ⟨?_, ih (j0 + 1)⟩
    intro hmem
    have hmem' : wordKey j0 ∈ keysOf (mkWords piny (j0 + 1) rest) := hmem
    rcases List.mem_map.mp hmem' with ⟨p, hp, he⟩
    rcases mem_mkWords hp with ⟨j, t', hj, hk, _, _⟩
    have := wordKey_inj (he.symm.trans hk)
    omega

theorem wordFlats_covers {piny : String → String} {sid : String} {toks : List SpacyToken} :
    ∀ {j0 : Nat} {wk : String} {w : Word}, (wk, w) ∈ mkWords piny j0 toks →
      alookup (wordFlats sid j0 toks) (sid ++ "_" ++ wk) = some w.text := by
  induction toks with
  | nil => intro j0 wk w h; cases h
  | cons t rest ih =>
    intro j0 wk w h
    rcases List.mem_cons.mp h with h' | h'
    · have hk : wk = wordKey j0 := congrArg Prod.fst h'
      have hw : w = mkWord piny t := congrArg Prod.snd h'
      subst hk
      subst hw
      simp [wordFlats, alookup, mkWord]
    · rcases mem_mkWords h' with ⟨j, t', hj, hk, _, _⟩
      have hk' : wk = wordKey j := hk
      have hne : sid ++ "_" ++ wordKey j0 ≠ sid ++ "_" ++ wk := by
        rw [hk']
        intro he
        have := wordKey_inj (strAppend_cancel_left (a := sid ++ "_") he)
        omega
      simpa [wordFlats, alookup, hne] using ih h'

theorem keysOf_append {α : Type} (a b : List (String × α)) :
    keysOf (a ++ b) = keysOf a ++ keysOf b := List.map_append _ _ _

theorem ptbAux_cons (piny : String → String) (bid : String) (i0 : Nat)
    (s : SpacySentence) (rest : List SpacySentence) :
    ptbAux piny bid i0 (s :: rest) =
      ((sentKey i0, { text := s.text, words := mkWords piny 1 s.tokens }) ::
        (ptbAux piny bid (i0 + 1) rest).1,
       ((bid ++ "_" ++ sentKey i0, s.text) ::
          wordFlats (bid ++ "_" ++ sentKey i0) 1 s.tokens) ++
         (ptbAux piny bid (i0 + 1) rest).2.1,
       (bid ++ "_" ++ sentKey i0, s.text) :: (ptbAux piny bid (i0 + 1) rest).2.2) := rfl

theorem wordFlats_keys_nodup (sid : String) (toks : List SpacyToken) :
    ∀ j0 : Nat, (keysOf (wordFlats sid j0 toks)).Nodup := by
  induction toks with
  | nil => intro j0; exact List.nodup_nil
  | cons t rest ih =>
    intro j0
    refine List.nodup_cons.mpr ⟨?_, ih (j0 + 1)⟩
    intro hmem
    rcases mem_wordFlats_keys hmem with ⟨j, hj, hk⟩
    have := wordKey_inj (strAppend_cancel_left (a := sid ++ "_") hk)
    omega

theorem mem_ptb_structured {piny : String → String} {bid : String}
    {sents : List SpacySentence} :
    ∀ {i0 : Nat} {p : String × SentEntry}, p ∈ (ptbAux piny bid i0 sents).1 →
      ∃ i s, i0 ≤ i ∧ p.1 = sentKey i ∧ s ∈ sents ∧
        p.2 = { text := s.text, words := mkWords piny 1 s.tokens } := by
  induction sents with
  | nil => intro i0 p h; cases h
  | cons s rest ih =>
    intro i0 p h
    rw [ptbAux_cons] at h
    rcases List.mem_cons.mp h with h' | h'
    · exact ⟨i0, s, Nat.le_refl _, by rw [h'], List.mem_cons_self _ _, by rw [h']⟩
    · rcases ih h' with ⟨i, s', hi, hk, hs, hv⟩
      exact ⟨i, s', Nat.le_of_succ_le hi, hk, List.mem_cons_of_mem _ hs, hv⟩

theorem ptb_structured_keys_nodup (piny : String → String) (bid : String)
    (sents : List SpacySentence) :
    ∀ i0 : Nat, (keysOf (ptbAux piny bid i0 sents).1).Nodup := by
  induction sents with
  | nil => intro i0; exact List.nodup_nil
  | cons s rest ih =>
    intro i0
    rw [ptbAux_cons]
    refine List.nodup_cons.mpr ⟨?_, ih (i0 + 1)⟩
    intro hmem
    rcases List.mem_map.mp hmem with ⟨p, hp, he⟩
    rcases mem_ptb_structured hp with ⟨i, s', hi, hk, _, _⟩
    have := sentKey_inj (he.symm.trans hk)
    omega

theorem mem_ptb_flat_keys {piny : String → String} {bid : String}
    {sents : List SpacySentence} :
    ∀ {i0 : Nat} {k : String}, k ∈ keysOf (ptbAux piny bid i0 sents).2.1 →
      ∃ i, i0 ≤ i ∧ (k = bid ++ "_" ++ sentKey i ∨
        ∃ j, k = bid ++ "_" ++ sentKey i ++ "_" ++ wordKey j) := by
  induction sents with
  | nil => intro i0 k h; cases h
  | cons s rest ih =>
    intro i0 k h
    rw [ptbAux_cons] at h
    rw [show ((bid ++ "_" ++ sentKey i0, s.text) ::
          wordFlats (bid ++ "_" ++ sentKey i0) 1 s.tokens) ++
          (ptbAux piny bid (i0 + 1) rest).2.1 =
        (bid ++ "_" ++ sentKey i0, s.text) ::
          (wordFlats (bid ++ "_" ++ sentKey i0) 1 s.tokens ++
            (ptbAux piny bid (i0 + 1) rest).2.1) from rfl] at h
    rcases List.mem_cons.mp h with h' | h'
    · exact ⟨i0, Nat.le_refl _, Or.inl h'⟩
    · rw [List.map_append] at h'
      rcases List.mem_append.mp h' with h'' | h''
      · rcases mem_wordFlats_keys h'' with ⟨j, _, hk⟩
        exact ⟨i0, Nat.le_refl _, Or.inr ⟨j, hk⟩⟩
      · rcases ih h'' with ⟨i, hi, hk⟩
        exact ⟨i, Nat.le_of_succ_le hi, hk⟩

theorem ptb_flat_keys_nodup (piny : String → String) (bid : String)
    (sents : List SpacySentence) :
    ∀ i0 : Nat, (keysOf (ptbAux piny bid i0 sents).2.1).Nodup := by
  induction sents with
  | nil => intro i0; exact List.nodup_nil
  | cons s rest ih =>
    intro i0
    rw [ptbAux_cons]
    rw [show ((bid ++ "_" ++ sentKey i0, s.text) ::
          wordFlats (bid ++ "_" ++ sentKey i0) 1 s.tokens) ++
          (ptbAux piny bid (i0 + 1) rest).2.1 =
        (bid ++ "_" ++ sentKey i0, s.text) ::
          (wordFlats (bid ++ "_" ++ sentKey i0) 1 s.tokens ++
            (ptbAux piny bid (i0 + 1) rest).2.1) from rfl]
    refine List.nodup_cons.mpr ⟨?_, ?_⟩
    · intro hmem
      rw [List.map_append] at hmem
      rcases List.mem_append.mp hmem with h'' | h''
      · rcases mem_wordFlats_keys h'' with ⟨j, _, hk⟩
        exact strAppend_sep_ne _ _ hk
      · rcases mem_ptb_flat_keys h'' with ⟨i, hi, hk | hk⟩
        · exact key_s_ne_key_s (by omega) hk
        · rcases hk with ⟨j, hk⟩
          exact key_s_ne_key_w hk
    · rw [List.map_append]
      rw [List.nodup_append]
      refine ⟨wordFlats_keys_nodup _ _ _, ih (i0 + 1), ?_⟩
      intro k hk1 hk2
      rcases mem_wordFlats_keys hk1 with ⟨j, _, hkw⟩
      rcases mem_ptb_flat_keys hk2 with ⟨i, hi, hk | hk⟩
      · exact key_s_ne_key_w (hk.symm.trans hkw)
      · rcases hk with ⟨j', hk⟩
        have := (key_w_cancel (hkw.symm.trans hk)).1
        omega

theorem ptb_flat_covers {piny : String → String} {bid : String}
    {sents : List SpacySentence} :
    ∀ {i0 : Nat} {sk : String} {se : SentEntry},
      (sk, se) ∈ (ptbAux piny bid i0 sents).1 →
      alookup (ptbAux piny bid i0 sents).2.1 (bid ++ "_" ++ sk) = some se.text ∧
      (∀ wk w, (wk, w) ∈ se.words →
        alookup (ptbAux piny bid i0 sents).2.1 (bid ++ "_" ++ sk ++ "_" ++ wk) =
          some w.text) := by
  induction sents with
  | nil => intro i0 sk se h; cases h
  | cons s rest ih =>
    intro i0 sk se h
    rw [ptbAux_cons] at h ⊢
    simp only at h ⊢
    rw [show ((bid ++ "_" ++ sentKey i0, s.text) ::
          wordFlats (bid ++ "_" ++ sentKey i0) 1 s.tokens) ++
          (ptbAux piny bid (i0 + 1) rest).2.1 =
        (bid ++ "_" ++ sentKey i0, s.text) ::
          (wordFlats (bid ++ "_" ++ sentKey i0) 1 s.tokens ++
            (ptbAux piny bid (i0 + 1) rest).2.1) from rfl]
    rcases List.mem_cons.mp h with h' | h'
    · have hsk : sk = sentKey i0 := congrArg Prod.fst h'
      have hse : se = { text := s.text, words := mkWords piny 1 s.tokens } :=
        congrArg Prod.snd h'
      subst hsk
      subst hse
      constructor
      · simp [alookup]
      · intro wk w hw
        have hne : ¬((bid ++ "_" ++ sentKey i0) =
            bid ++ "_" ++ sentKey i0 ++ "_" ++ wk) := strAppend_sep_ne _ _
        have hcov := @wordFlats_covers piny (bid ++ "_" ++ sentKey i0) s.tokens 1 wk w hw
        simp only [alookup, if_neg hne]
        exact alookup_append_of_some hcov
    · rcases mem_ptb_structured h' with ⟨i, s', hi, hsk, _, hse⟩
      have hsk' : sk = sentKey i := hsk
      have hcov := ih h'
      have hnotwf1 : (bid ++ "_" ++ sk) ∉
          keysOf (wordFlats (bid ++ "_" ++ sentKey i0) 1 s.tokens) := by
        intro hmem
        rcases mem_wordFlats_keys hmem with ⟨j, _, hk⟩
        rw [hsk'] at hk
        exact key_s_ne_key_w hk
      have hne1 : ¬((bid ++ "_" ++ sentKey i0) = bid ++ "_" ++ sk) := by
        rw [hsk']
        exact key_s_ne_key_s (by omega)
      constructor
      · simp only [alookup, if_neg hne1]
        rw [alookup_append_not_mem _ hnotwf1]
        exact hcov.1
      · intro wk w hw
        have hwk : ∃ j, wk = wordKey j := by
          have hsew : se.words = mkWords piny 1 s'.tokens := congrArg SentEntry.words hse
          rw [hsew] at hw
          rcases mem_mkWords hw with ⟨j, t, _, hk, _, _⟩
          exact ⟨j, hk⟩
        rcases hwk with ⟨j, hwkj⟩
        have hne2 : ¬((bid ++ "_" ++ sentKey i0) = bid ++ "_" ++ sk ++ "_" ++ wk) := by
          rw [hsk', hwkj]
          exact key_s_ne_key_w
        have hnotwf2 : (bid ++ "_" ++ sk ++ "_" ++ wk) ∉
            keysOf (wordFlats (bid ++ "_" ++ sentKey i0) 1 s.tokens) := by
          intro hmem
          rcases mem_wordFlats_keys hmem with ⟨j', _, hk⟩
          rw [hsk', hwkj] at hk
          have := (key_w_cancel hk).1
          omega
        simp only [alookup, if_neg hne2]
        rw [alookup_append_not_mem _ hnotwf2]
        exact hcov.2 wk w hw

/-! ## The parsed HTML tree

The pipeline operates on the tree `html5lib` produced; it is modelled as
elements (tag, attributes, children), text nodes (`NavigableString`) and
comments.  String nodes are addressed by child-index paths from the root;
the loops of `extract_translatable_html` first collect the node lists
(`find_all` materializes its result) and then fold over them, reading each
node's surroundings from the current, partially mutated tree — exactly the
visibility the Python objects give. -/

inductive HNode where
  | elem (tag : String) (attrs : List (String × String)) (children : List HNode)
  | text (s : String)
  | comment (s : String)

mutual

/-- BeautifulSoup `.text` of a node: all contained strings, concatenated. -/
def nodeText : HNode → String
  | .elem _ _ cs => nodesText cs
  | .text s => s
  | .comment s => s

def nodesText : List HNode → String
  | [] => ""
  | c :: cs => nodeText c ++ nodesText cs

end

def getNode? : HNode → List Nat → Option HNode
  | n, [] => some n
  | .elem _ _ cs, i :: p =>
    (match cs[i]? with
     | some c => getNode? c p
     | none => none)
  | _, _ :: _ => none

/-- The string node at a path: its raw text and whether it is a comment. -/
def getString? (t : HNode) (p : List Nat) : Option (String × Bool) :=
  match getNode? t p with
  | some (.text s) => some (s, false)
  | some (.comment s) => some (s, true)
  | _ => none

/-- The ancestor chain of the node at a path, innermost (parent) first,
as the classifier's inheritance walk sees it (`tag.parent`, then
`.parent.parent`, ... up to the document root). -/
def ancestorViews : HNode → List Nat → List ElemView
  | _, [] => []
  | .elem tag attrs cs, i :: p =>
    (match cs[i]? with
     | some c => ancestorViews c p
     | none => []) ++ [⟨tag, attrs, nodesText cs⟩]
  | _, _ :: _ => []

/-- `element.replace_with(NavigableString(s))`: substitute the string node
at the path (invoked only on paths addressing string nodes). -/
def replaceTextAt : HNode → List Nat → String → HNode
  | .elem tag attrs cs, [i], s => .elem tag attrs (cs.set i (.text s))
  | .elem tag attrs cs, i :: p :: ps, s =>
    (match cs[i]? with
     | some c => .elem tag attrs (cs.set i (replaceTextAt c (p :: ps) s))
     | none => .elem tag attrs cs)
  | n, _, _ => n

/-- `tag[attr] = value` on the element at the path. -/
def setAttrAt : HNode → List Nat → String → String → HNode
  | .elem tag attrs cs, [], k, v => .elem tag (dinsert attrs k v) cs
  | .elem tag attrs cs, i :: p, k, v =>
    (match cs[i]? with
     | some c => .elem tag attrs (cs.set i (setAttrAt c p k v))
     | none => .elem tag attrs cs)
  | n, _, _, _ => n

mutual

/-- The paths of all string nodes below a node, in document order
(`soup.find_all(string=True)`). -/
def stringPaths : HNode → List (List Nat)
  | .elem _ _ cs => stringPathsList cs 0
  | _ => []

def stringPathsList : List HNode → Nat → List (List Nat)
  | [], _ => []
  | c :: cs, i =>
    (match c with
     | .text _ => [[i]]
     | .comment _ => [[i]]
     | .elem _ _ _ => (stringPaths c).map (fun p => i :: p)) ++
      stringPathsList cs (i + 1)

end

mutual

/-- The paths of all descendant elements, in document order
(`soup.find_all()`). -/
def elemPaths : HNode → List (List Nat)
  | .elem _ _ cs => elemPathsList cs 0
  | _ => []

def elemPathsList : List HNode → Nat → List (List Nat)
  | [], _ => []
  | c :: cs, i =>
    (match c with
     | .elem _ _ _ => [i] :: (elemPaths c).map (fun p => i :: p)
     | _ => []) ++ elemPathsList cs (i + 1)

end

/-- The attributes of the element at a path. -/
def elemAttrs? (t : HNode) (p : List Nat) : Option (List (String × String)) :=
  match getNode? t p with
  | some (.elem _ attrs _) => some attrs
  | _ => none

/-- The tag name of the element at a path. -/
def elemTag? (t : HNode) (p : List Nat) : Option String :=
  match getNode? t p with
  | some (.elem tag _ _) => some tag
  | _ => none

mutual

/-- BeautifulSoup's `.string`: follow single children through element
nodes; a single string child is the result, anything else is `None`. -/
def singleString : HNode → Option String
  | .elem _ _ cs => singleStringList cs
  | .text s => some s
  | .comment s => some s

def singleStringList : List HNode → Option String
  | [c] => singleString c
  | _ => none

end

mutual

/-- The path (relative to the given node) of the string node that
`.string` returns, when it exists. -/
def singleStringPath : HNode → Option (List Nat)
  | .elem _ _ cs => singleStringPathList cs
  | _ => none

def singleStringPathList : List HNode → Option (List Nat)
  | [c] =>
    (match c with
     | .text _ => some [0]
     | .comment _ => some [0]
     | .elem _ _ _ => (singleStringPath c).map (fun p => 0 :: p))
  | _ => none

end

/-! ## JSON-LD payloads and the extraction state -/

inductive Json where
  | str (s : String)
  | num (n : Int)
  | bool (b : Bool)
  | null
  | arr (xs : List Json)
  | obj (entries : List (String × Json))

/-- The mutable run state of `extract_translatable_html`: the block
counter, the structured and flat output dicts, and three pure observers of
the run — the block ids in recording order, the `(block id, placeholder)`
pairs actually written into the tree, and the number of JSON-LD payloads
whose walk aborted. -/
structure ExtractState where
  counter : Nat
  structured : List (String × BlockEntry)
  flat : List (String × String)
  blockLog : List String
  phLog : List (String × String)
  walkAborts : Nat
deriving DecidableEq

/-- The recording steps every extraction site shares, in source order:
`structured_output[block_id] = {..., "tokens": structured}`,
`flattened_output.update(flattened)`, `block_counter += 1`.  Returns the
new state, the block id used, and the sentence id/text pairs for the
caller's substitution decision. -/
def recordBlock (nlp : Annotator) (piny : String → String) (st : ExtractState)
    (ctx : BlockContext) (text : String) :
    ExtractState × String × List (String × String) :=
  let bid := blockId st.counter
  let r := process_text_block nlp piny bid text
  ({ st with
      counter := st.counter + 1
      structured := dinsert st.structured bid ⟨ctx, r.1⟩
      flat := dupdate st.flat r.2.1
      blockLog := st.blockLog ++ [bid] },
   bid, r.2.2)

/-- Rebuild a walk result around a reconstructed value, keeping state and
pending placeholders (`.ok` results re-wrap the value, errors propagate). -/
def repack {a b : Type} (f : a -> b) :
    Except Unit a × ExtractState × List (String × String) →
      Except Unit b × ExtractState × List (String × String)
  | (.ok x, s, p) => (.ok (f x), s, p)
  | (.error e, s, p) => (.error e, s, p)

theorem repack_snd {a b : Type} (f : a -> b)
    (x : Except Unit a × ExtractState × List (String × String)) :
    (repack f x).2 = x.2 := by
  rcases x with ⟨r, s, p⟩
  cases r <;> rfl

mutual

/-- `extract_from_jsonld(obj, block_counter, structured_output,
flattened_output)` (lines 242–265).  The state is threaded through the
recursion (the Python dicts are mutated in place, so recordings made
before an exception survive it); `pend` collects the placeholders that
will reach the tree if — and only if — the whole payload succeeds.
`.error` models the `IndexError` of `tokens[0][0]` on an empty
segmentation, which unwinds the entire payload. -/
def extract_from_jsonld (nlp : Annotator) (piny : String → String) :
    Json → ExtractState → List (String × String) →
      Except Unit Json × ExtractState × List (String × String)
  | .obj entries, st, pend => repack Json.obj (walkObjEntries nlp piny entries st pend)
  | .arr xs, st, pend => repack Json.arr (walkArrEntries nlp piny xs st pend)
  | j, st, pend => (.ok j, st, pend)

/-- The `for key in list(obj.keys())` loop: string values are filtered by
the key condition and substituted; dict or list values are recursed into;
other scalars are untouched.  `obj[key] = tokens[0][0]` precedes the
recording assignments, so an empty segmentation aborts before this value
records anything. -/
def walkObjEntries (nlp : Annotator) (piny : String → String) :
    List (String × Json) → ExtractState → List (String × String) →
      Except Unit (List (String × Json)) × ExtractState × List (String × String)
  | [], st, pend => (.ok [], st, pend)
  | (k, v) :: rest, st, pend =>
    (match v with
     | .str s =>
       if jsonldKeyMatches k then
         let r := recordBlock nlp piny st (.jsonld k) s
         (match r.2.2 with
          | [] => (.error (), st, pend)
          | (sid, _) :: _ =>
            repack (fun es => (k, Json.str sid) :: es)
              (walkObjEntries nlp piny rest r.1 (pend ++ [(r.2.1, sid)])))
       else
         repack (fun es => (k, Json.str s) :: es)
           (walkObjEntries nlp piny rest st pend)
     | .obj es2 =>
       (match extract_from_jsonld nlp piny (.obj es2) st pend with
        | (.ok v2, st2, pend2) =>
          repack (fun es => (k, v2) :: es) (walkObjEntries nlp piny rest st2 pend2)
        | (.error e, st2, pend2) => (.error e, st2, pend2))
     | .arr xs2 =>
       (match extract_from_jsonld nlp piny (.arr xs2) st pend with
        | (.ok v2, st2, pend2) =>
          repack (fun es => (k, v2) :: es) (walkObjEntries nlp piny rest st2 pend2)
        | (.error e, st2, pend2) => (.error e, st2, pend2))
     | other =>
       repack (fun es => (k, other) :: es) (walkObjEntries nlp piny rest st pend))

/-- The `for i in range(len(obj))` loop over a list payload. -/
def walkArrEntries (nlp : Annotator) (piny : String → String) :
    List Json → ExtractState → List (String × String) →
      Except Unit (List Json) × ExtractState × List (String × String)
  | [], st, pend => (.ok [], st, pend)
  | x :: rest, st, pend =>
    (match extract_from_jsonld nlp piny x st pend with
     | (.ok x2, st2, pend2) =>
       (match walkArrEntries nlp piny rest st2 pend2 with
        | (.ok xs2, st3, pend3) => (.ok (x2 :: xs2), st3, pend3)
        | (.error e, st3, pend3) => (.error e, st3, pend3))
     | (.error e, st2, pend2) => (.error e, st2, pend2))

end

/-! ## The five fragment sources of `extract_translatable_html` -/

/-- One iteration of the text-node loop (lines 278–296): classify the
string node at `path` against its ancestor chain; on acceptance process
the stripped text, and if segmentation produced at least one sentence
record the block and replace the node with the first sentence identifier.
With zero sentences nothing is recorded and the tree is untouched. -/
def textNodeStep (nlp : Annotator) (piny : String → String)
    (acc : HNode × ExtractState) (path : List Nat) : HNode × ExtractState :=
  let tree := acc.1
  let st := acc.2
  match getString? tree path with
  | none => (tree, st)
  | some (raw, isC) =>
    if is_translatable_text (ancestorViews tree path) raw isC then
      let text := pyStrip raw
      if text = "" then (tree, st)
      else
        let parentTag :=
          match (ancestorViews tree path).head? with
          | some v => v.tag
          | none => "no_parent"
        let r := recordBlock nlp piny st (.tag parentTag) text
        match r.2.2 with
        | [] => (tree, st)
        | (sid, _) :: _ =>
          (replaceTextAt tree path sid,
           { r.1 with phLog := r.1.phLog ++ [(r.2.1, sid)] })
    else (tree, st)

def phase1 (nlp : Annotator) (piny : String → String)
    (tree : HNode) (st : ExtractState) : HNode × ExtractState :=
  (stringPaths tree).foldl (textNodeStep nlp piny) (tree, st)

/-- One iteration of the attribute loop (lines 299–312) for one element
path and one attribute name.  `isinstance(tag[attr], str)` always holds
(none of `TRANSLATABLE_ATTRS` is a multi-valued attribute).  Note the
block is recorded and the counter advanced even when segmentation is
empty; only the substitution into the tree is guarded by
`if sentence_tokens:`. -/
def attrStep (nlp : Annotator) (piny : String → String)
    (acc : HNode × ExtractState) (pa : List Nat × String) : HNode × ExtractState :=
  let tree := acc.1
  let st := acc.2
  match elemAttrs? tree pa.1 with
  | none => (tree, st)
  | some attrs =>
    match alookup attrs pa.2 with
    | none => (tree, st)
    | some v =>
      if BLOCKED_ATTRS.contains pa.2 then (tree, st)
      else
        let value := pyStrip v
        if value = "" then (tree, st)
        else
          let r := recordBlock nlp piny st (.attr pa.2) value
          match r.2.2 with
          | [] => (tree, r.1)
          | (sid, _) :: _ =>
            (setAttrAt tree pa.1 pa.2 sid,
             { r.1 with phLog := r.1.phLog ++ [(r.2.1, sid)] })

def phase2 (nlp : Annotator) (piny : String → String)
    (tree : HNode) (st : ExtractState) : HNode × ExtractState :=
  ((elemPaths tree).flatMap (fun p => TRANSLATABLE_ATTRS.map (fun a => (p, a)))).foldl
    (attrStep nlp piny) (tree, st)

/-- One iteration of the meta loop (lines 315–330).  As for attributes,
the block is recorded unconditionally once the guard passes; only the
`meta["content"]` substitution needs a nonempty segmentation. -/
def metaStep (nlp : Annotator) (piny : String → String)
    (acc : HNode × ExtractState) (path : List Nat) : HNode × ExtractState :=
  let tree := acc.1
  let st := acc.2
  match elemAttrs? tree path with
  | none => (tree, st)
  | some attrs =>
    let nm := pyLower (attrGet attrs "name")
    let prop := pyLower (attrGet attrs "property")
    let content := pyStrip (attrGet attrs "content")
    if EXCLUDED_META_NAMES.contains nm || EXCLUDED_META_PROPERTIES.contains prop then
      (tree, st)
    else if content ≠ "" ∧
        (SEO_META_NAME_FIELDS.contains nm || SEO_META_PROPERTY_FIELDS.contains prop) then
      let r := recordBlock nlp piny st (.meta (if nm ≠ "" then nm else prop)) content
      match r.2.2 with
      | [] => (tree, r.1)
      | (sid, _) :: _ =>
        (setAttrAt tree path "content" sid,
         { r.1 with phLog := r.1.phLog ++ [(r.2.1, sid)] })
    else (tree, st)

def phase3 (nlp : Annotator) (piny : String → String)
    (tree : HNode) (st : ExtractState) : HNode × ExtractState :=
  ((elemPaths tree).filter (fun p => elemTag? tree p = some "meta")).foldl
    (metaStep nlp piny) (tree, st)

/-- The title step (lines 333–341): `soup.title` is the first `title`
element in document order; its `.string` (when it exists and strips
nonempty) is processed, the block recorded, and on nonempty segmentation
the string node is replaced in place. -/
def phase4 (nlp : Annotator) (piny : String → String)
    (tree : HNode) (st : ExtractState) : HNode × ExtractState :=
  match (elemPaths tree).find? (fun p => elemTag? tree p = some "title") with
  | none => (tree, st)
  | some tpath =>
    match getNode? tree tpath with
    | none => (tree, st)
    | some n =>
      match singleString n, singleStringPath n with
      | some s, some sp =>
        if pyStrip s = "" then (tree, st)
        else
          let r := recordBlock nlp piny st (.tag "title") (pyStrip s)
          match r.2.2 with
          | [] => (tree, r.1)
          | (sid, _) :: _ =>
            (replaceTextAt tree (tpath ++ sp) sid,
             { r.1 with phLog := r.1.phLog ++ [(r.2.1, sid)] })
      | _, _ => (tree, st)

/-- Whether an element is a `<script type="application/ld+json">` tag
(the `find_all("script", {"type": "application/ld+json"})` filter). -/
def isJsonLdScript (tree : HNode) (path : List Nat) : Bool :=
  elemTag? tree path = some "script" &&
    (match elemAttrs? tree path with
     | some attrs => alookup attrs "type" = some "application/ld+json"
     | none => false)

/-- One iteration of the JSON-LD loop (lines 344–350).  A missing
`.string`, a `json.loads` failure, or a walk abort is caught by the
`except` handler: the tree keeps the original script text.  On an abort
the maps keep everything the walk recorded before failing, but the
enclosing `block_counter` keeps its pre-payload value, because the
assignment `block_counter = extract_from_jsonld(...)` never completes. -/
def scriptStep (nlp : Annotator) (piny : String → String)
    (parseJson : String → Option Json) (dumpJson : Json → String)
    (acc : HNode × ExtractState) (path : List Nat) : HNode × ExtractState :=
  let tree := acc.1
  let st := acc.2
  match getNode? tree path with
  | none => (tree, st)
  | some n =>
    match singleString n, singleStringPath n with
    | some s, some sp =>
      (match parseJson (pyStrip s) with
       | none => (tree, st)
       | some data =>
         (match extract_from_jsonld nlp piny data st [] with
          | (.ok newData, st', pend') =>
            (replaceTextAt tree (path ++ sp) (dumpJson newData),
             { st' with phLog := st'.phLog ++ pend' })
          | (.error _, st', _) =>
            (tree, { st' with counter := st.counter, walkAborts := st'.walkAborts + 1 })))
    | _, _ => (tree, st)

def phase5 (nlp : Annotator) (piny : String → String)
    (parseJson : String → Option Json) (dumpJson : Json → String)
    (tree : HNode) (st : ExtractState) : HNode × ExtractState :=
  ((elemPaths tree).filter (fun p => isJsonLdScript tree p)).foldl
    (scriptStep nlp piny parseJson dumpJson) (tree, st)

/-- `extract_translatable_html`: the five fragment sources in their fixed
order — text nodes, attributes, meta tags, the title, JSON-LD payloads —
starting from `block_counter = 1` and empty output maps.  File writing is
external; the function returns the mutated tree and the final state. -/
def extract_translatable_html (nlp : Annotator) (piny : String → String)
    (parseJson : String → Option Json) (dumpJson : Json → String)
    (doc : HNode) : HNode × ExtractState :=
  let st0 : ExtractState := ⟨1, [], [], [], [], 0⟩
  let r1 := phase1 nlp piny doc st0
  let r2 := phase2 nlp piny r1.1 r1.2
  let r3 := phase3 nlp piny r2.1 r2.2
  let r4 := phase4 nlp piny r3.1 r3.2
  phase5 nlp piny parseJson dumpJson r4.1 r4.2

/-! ## Run invariants -/

theorem alookup_mem {α : Type} {l : List (String × α)} {k : String} {v : α}
    (h : alookup l k = some v) : (k, v) ∈ l := by
  induction l with
  | nil => cases h
  | cons p rest ih =>
    by_cases hp : p.1 = k
    · simp only [alookup, if_pos hp] at h
      have : p = (k, v) := by
        cases p
        simp at hp h
        simp [hp, h]
      exact this ▸ List.mem_cons_self _ _
    · simp only [alookup, if_neg hp] at h
      exact List.mem_cons_of_mem _ (ih h)

theorem keysOf_dinsert_nodup {α : Type} {m : List (String × α)} (k : String) (v : α)
    (h : (keysOf m).Nodup) : (keysOf (dinsert m k v)).Nodup := by
  induction m with
  | nil => simp [dinsert, keysOf]
  | cons p rest ih =>
    have hc : (p.1 :: keysOf rest).Nodup := h
    by_cases hp : p.1 = k
    · have : keysOf (dinsert (p :: rest) k v) = k :: keysOf rest := by
        simp [dinsert, hp, keysOf]
      rw [this]
      refine List.nodup_cons.mpr ⟨?_, (List.nodup_cons.mp hc).2⟩
      rw [← hp]
      exact (List.nodup_cons.mp hc).1
    · have : keysOf (dinsert (p :: rest) k v) = p.1 :: keysOf (dinsert rest k v) := by
        simp [dinsert, hp, keysOf]
      rw [this]
      refine List.nodup_cons.mpr ⟨?_, ih (List.nodup_cons.mp hc).2⟩
      intro hmem
      rcases List.mem_map.mp hmem with ⟨q, hq, he⟩
      rcases mem_dinsert hq with h' | h'
      · rw [h'] at he
        exact hp he.symm
      · exact (List.nodup_cons.mp hc).1 (he ▸ List.mem_map.mpr ⟨q, h', rfl⟩)

theorem mem_dinsert_nodup {α : Type} {m : List (String × α)} {k : String} {v : α}
    {p : String × α} (hnd : (keysOf m).Nodup) (h : p ∈ dinsert m k v) :
    p = (k, v) ∨ (p ∈ m ∧ p.1 ≠ k) := by
  induction m with
  | nil => exact Or.inl (by simpa [dinsert] using h)
  | cons q rest ih =>
    have hc : (q.1 :: keysOf rest).Nodup := hnd
    by_cases hq : q.1 = k
    · simp only [dinsert, if_pos hq] at h
      rcases List.mem_cons.mp h with h' | h'
      · exact Or.inl h'
      · right
        refine ⟨List.mem_cons_of_mem _ h', ?_⟩
        intro he
        apply (List.nodup_cons.mp hc).1
        rw [hq, ← he]
        exact List.mem_map.mpr ⟨p, h', rfl⟩
    · simp only [dinsert, if_neg hq] at h
      rcases List.mem_cons.mp h with h' | h'
      · right
        rw [h']
        exact ⟨List.mem_cons_self _ _, hq⟩
      · rcases ih (List.nodup_cons.mp hc).2 h' with h'' | h''
        · exact Or.inl h''
        · exact Or.inr ⟨List.mem_cons_of_mem _ h''.1, h''.2⟩

theorem block_prefix_ne {m n : Nat} (h : m ≠ n) (x y : String) :
    blockId m ++ "_" ++ x ≠ blockId n ++ "_" ++ y := by
  intro he
  exact h (blockId_sep_cancel he).1

/-- A key belonging to another block is never among the flat keys a call
to `process_text_block` produces. -/
theorem target_not_in_ptb_keys {piny : String → String} {bid bid' x : String}
    {sents : List SpacySentence} {i0 : Nat} {m' n : Nat}
    (hb' : bid' = blockId m') (hb : bid = blockId n) (hne : m' ≠ n) :
    (bid' ++ "_" ++ x) ∉ keysOf (ptbAux piny bid i0 sents).2.1 := by
  intro hmem
  rcases mem_ptb_flat_keys hmem with ⟨i, _, hk | ⟨j, hk⟩⟩
  · rw [hb', hb] at hk
    exact block_prefix_ne hne _ _ hk
  · rw [regroup_key (bid ++ "_") (sentKey i) (wordKey j)] at hk
    rw [hb', hb] at hk
    exact block_prefix_ne hne _ _ hk

theorem append_s1 (b : String) : b ++ "_" ++ sentKey 1 = b ++ "_S1" := by
  apply strData_inj
  have h1 : natDigits 1 = ['1'] := by
    rw [natDigits]
    rw [dif_pos (by omega)]
    rfl
  simp [strData_append, sentKey, natStr_data, h1]

/-- What is true of one committed placeholder: its block number is below
the counter, its text is the block's first sentence identifier, and the
structured map resolves the block to an entry with an `S1` sentence. -/
def PhFact (st : ExtractState) (p : String × String) : Prop :=
  ∃ m, m < st.counter ∧ p.1 = blockId m ∧ p.2 = p.1 ++ "_S1" ∧
    ∃ e, alookup st.structured p.1 = some e ∧ ∃ se, alookup e.tokens "S1" = some se

/-- The shape of every recorded block entry: nodup sentence keys of
`S{i}` form, nodup word keys of `W{j}` form, and flat-map coverage of
every sentence and word identifier. -/
def EntryFact (flat : List (String × String)) (bid : String) (e : BlockEntry) : Prop :=
  (keysOf e.tokens).Nodup ∧
  ∀ sk se, (sk, se) ∈ e.tokens →
    (keysOf se.words).Nodup ∧
    (∃ i, sk = sentKey i) ∧
    alookup flat (bid ++ "_" ++ sk) = some se.text ∧
    (∀ wk w, (wk, w) ∈ se.words → (∃ j, wk = wordKey j) ∧
      alookup flat (bid ++ "_" ++ sk ++ "_" ++ wk) = some w.text)

/-- The abort-robust run invariant. -/
def InvA (st : ExtractState) : Prop :=
  (keysOf st.structured).Nodup ∧
  (∀ p ∈ st.phLog, PhFact st p) ∧
  (∀ q ∈ st.structured, (∃ m, q.1 = blockId m) ∧ EntryFact st.flat q.1 q.2)

/-- The abort-fragile invariant behind identifier uniqueness: the log of
recorded block ids has no duplicates and stays below the counter. -/
def InvB (st : ExtractState) : Prop :=
  st.blockLog.Nodup ∧ ∀ b ∈ st.blockLog, ∃ m, m < st.counter ∧ b = blockId m

theorem process_text_block_eq (nlp : Annotator) (piny : String → String)
    (bid text : String) :
    process_text_block nlp piny bid text = ptbAux piny bid 1 (nlp text) := rfl

theorem sentKey_one : sentKey 1 = "S1" := by
  apply strData_inj
  have h1 : natDigits 1 = ['1'] := by
    rw [natDigits]
    rw [dif_pos (by omega)]
    rfl
  simp [strData_append, sentKey, natStr_data, h1]

theorem recordBlock_fields (nlp : Annotator) (piny : String → String)
    (st : ExtractState) (ctx : BlockContext) (text : String) :
    (recordBlock nlp piny st ctx text).1.counter = st.counter + 1 ∧
    (recordBlock nlp piny st ctx text).1.phLog = st.phLog ∧
    (recordBlock nlp piny st ctx text).1.walkAborts = st.walkAborts ∧
    (recordBlock nlp piny st ctx text).1.blockLog = st.blockLog ++ [blockId st.counter] ∧
    (recordBlock nlp piny st ctx text).2.1 = blockId st.counter :=
  ⟨rfl, rfl, rfl, rfl, rfl⟩

theorem recordBlock_phFact {nlp : Annotator} {piny : String → String}
    {st : ExtractState} {ctx : BlockContext} {text : String} {p : String × String}
    (hp : PhFact st p) : PhFact (recordBlock nlp piny st ctx text).1 p := by
  rcases hp with ⟨m, hm, h1, h2, e, he, se, hse⟩
  refine ⟨m, by simp [recordBlock]; omega, h1, h2, e, ?_, se, hse⟩
  show alookup (dinsert st.structured (blockId st.counter) _) p.1 = some e
  rw [alookup_dinsert_ne]
  · exact he
  · rw [h1]
    intro hc
    have := blockId_inj hc
    omega

theorem recordBlock_entry_old {nlp : Annotator} {piny : String → String}
    {st : ExtractState} {ctx : BlockContext} {text : String} {q : String × BlockEntry}
    (hm' : ∃ m', q.1 = blockId m') (hq1 : q.1 ≠ blockId st.counter)
    (hE : EntryFact st.flat q.1 q.2) :
    EntryFact (recordBlock nlp piny st ctx text).1.flat q.1 q.2 := by
  rcases hm' with ⟨m', hq⟩
  have hmn : m' ≠ st.counter := by
    intro h
    exact hq1 (by rw [hq, h])
  rcases hE with ⟨hnd, hall⟩
  refine ⟨hnd, ?_⟩
  intro sk se hmem
  rcases hall sk se hmem with ⟨hwnd, hi, hcov, hwords⟩
  refine ⟨hwnd, hi, ?_, ?_⟩
  · show alookup (dupdate st.flat (process_text_block nlp piny (blockId st.counter) text).2.1)
      (q.1 ++ "_" ++ sk) = some se.text
    rw [process_text_block_eq]
    rw [alookup_dupdate_not_mem _ _ _ (target_not_in_ptb_keys hq rfl hmn)]
    exact hcov
  · intro wk w hw
    rcases hwords wk w hw with ⟨hj, hwcov⟩
    refine ⟨hj, ?_⟩
    show alookup (dupdate st.flat (process_text_block nlp piny (blockId st.counter) text).2.1)
      (q.1 ++ "_" ++ sk ++ "_" ++ wk) = some w.text
    rw [process_text_block_eq]
    rw [regroup_key (q.1 ++ "_") sk wk]
    rw [alookup_dupdate_not_mem _ _ _ (target_not_in_ptb_keys hq rfl hmn)]
    rw [← regroup_key (q.1 ++ "_") sk wk]
    exact hwcov

theorem recordBlock_invA {nlp : Annotator} {piny : String → String}
    {st : ExtractState} {ctx : BlockContext} {text : String}
    (hA : InvA st) : InvA (recordBlock nlp piny st ctx text).1 := by
  rcases hA with ⟨hnd, hph, hqs⟩
  refine ⟨?_, ?_, ?_⟩
  · exact keysOf_dinsert_nodup _ _ hnd
  · intro p hp
    exact recordBlock_phFact (hph p hp)
  · intro q hq
    have hq' : q ∈ dinsert st.structured (blockId st.counter)
        ⟨ctx, (process_text_block nlp piny (blockId st.counter) text).1⟩ := hq
    rcases mem_dinsert_nodup hnd hq' with he | ⟨hmem, hne⟩
    · rw [he]
      refine ⟨⟨st.counter, rfl⟩, ?_⟩
      rw [process_text_block_eq]
      refine ⟨ptb_structured_keys_nodup _ _ _ _, ?_⟩
      intro sk se hmem
      rcases mem_ptb_structured hmem with ⟨i, s, _, hsk, _, hse⟩
      have hsk' : sk = sentKey i := hsk
      have hse' : se = { text := s.text, words := mkWords piny 1 s.tokens } := hse
      have hcov := ptb_flat_covers hmem
      refine ⟨?_, ⟨i, hsk'⟩, ?_, ?_⟩
      · rw [hse']
        exact mkWords_keys_nodup _ _ _
      · show alookup (dupdate st.flat
          (ptbAux piny (blockId st.counter) 1 (nlp text)).2.1)
          (blockId st.counter ++ "_" ++ sk) = some se.text
        exact alookup_dupdate_mem _ _ _ _ (ptb_flat_keys_nodup _ _ _ _)
          (alookup_mem hcov.1)
      · intro wk w hw
        have hwj : ∃ j, wk = wordKey j := by
          have hw' : (wk, w) ∈ mkWords piny 1 s.tokens := by
            rw [hse'] at hw
            exact hw
          rcases mem_mkWords hw' with ⟨j, _, _, hk, _, _⟩
          exact ⟨j, hk⟩
        refine ⟨hwj, ?_⟩
        show alookup (dupdate st.flat
          (ptbAux piny (blockId st.counter) 1 (nlp text)).2.1)
          (blockId st.counter ++ "_" ++ sk ++ "_" ++ wk) = some w.text
        exact alookup_dupdate_mem _ _ _ _ (ptb_flat_keys_nodup _ _ _ _)
          (alookup_mem (hcov.2 wk w hw))
    · rcases hqs q hmem with ⟨hm', hE⟩
      exact ⟨hm', recordBlock_entry_old hm' hne hE⟩

theorem recordBlock_invB {nlp : Annotator} {piny : String → String}
    {st : ExtractState} {ctx : BlockContext} {text : String}
    (hB : InvB st) : InvB (recordBlock nlp piny st ctx text).1 := by
  rcases hB with ⟨hnd, hbound⟩
  constructor
  · show (st.blockLog ++ [blockId st.counter]).Nodup
    rw [List.nodup_append]
    refine ⟨hnd, List.nodup_singleton _, ?_⟩
    intro b hb hb'
    rcases hbound b hb with ⟨m, hm, he⟩
    simp at hb'
    rw [he] at hb'
    have := blockId_inj hb'
    omega
  · intro b hb
    have hb' : b ∈ st.blockLog ++ [blockId st.counter] := hb
    rcases List.mem_append.mp hb' with h' | h'
    · rcases hbound b h' with ⟨m, hm, he⟩
      exact ⟨m, by simp [recordBlock]; omega, he⟩
    · simp at h'
      exact ⟨st.counter, by simp [recordBlock], h'⟩

theorem recordBlock_head {nlp : Annotator} {piny : String → String}
    {st : ExtractState} {ctx : BlockContext} {text : String}
    {sid t : String} {tl : List (String × String)}
    (he : (recordBlock nlp piny st ctx text).2.2 = (sid, t) :: tl) :
    sid = blockId st.counter ++ "_S1" ∧
    ∃ e, alookup (recordBlock nlp piny st ctx text).1.structured
      (blockId st.counter) = some e ∧ ∃ se, alookup e.tokens "S1" = some se := by
  have he' : (ptbAux piny (blockId st.counter) 1 (nlp text)).2.2 = (sid, t) :: tl := he
  cases hnlp : nlp text with
  | nil =>
    rw [hnlp] at he'
    cases he'
  | cons s srest =>
    rw [hnlp, ptbAux_cons] at he'
    simp only at he'
    have hpair : (blockId st.counter ++ "_" ++ sentKey 1, s.text) = (sid, t) := by
      injection he'
    have h5 : blockId st.counter ++ "_" ++ sentKey 1 = sid := congrArg Prod.fst hpair
    have hsid : sid = blockId st.counter ++ "_" ++ sentKey 1 := h5.symm
    constructor
    · rw [hsid, append_s1]
    · refine ⟨⟨ctx, (process_text_block nlp piny (blockId st.counter) text).1⟩, ?_, ?_⟩
      · exact alookup_dinsert_self _ _ _
      · rw [process_text_block_eq, hnlp, ptbAux_cons]
        refine ⟨{ text := s.text, words := mkWords piny 1 s.tokens }, ?_⟩
        show (if sentKey 1 = "S1" then _ else _) = _
        rw [if_pos sentKey_one]

theorem recordBlock_new_phFact {nlp : Annotator} {piny : String → String}
    {st : ExtractState} {ctx : BlockContext} {text : String}
    {sid t : String} {tl : List (String × String)}
    (he : (recordBlock nlp piny st ctx text).2.2 = (sid, t) :: tl) :
    PhFact (recordBlock nlp piny st ctx text).1 (blockId st.counter, sid) := by
  rcases recordBlock_head he with ⟨hsid, e, hlook, hse⟩
  exact ⟨st.counter, by simp [recordBlock], rfl, hsid, e, hlook, hse⟩

/-! ## Walk invariants -/

def WalkPost (st : ExtractState) (out : ExtractState × List (String × String)) : Prop :=
  InvA out.1 ∧ (InvB st → InvB out.1) ∧ st.counter ≤ out.1.counter ∧
  out.1.phLog = st.phLog ∧ out.1.walkAborts = st.walkAborts ∧
  (∀ p ∈ out.2, PhFact out.1 p)

theorem walkPost_compose (m : ExtractState) {st : ExtractState}
    {out : ExtractState × List (String × String)}
    (h1 : st.counter ≤ m.counter) (h2 : m.phLog = st.phLog)
    (h3 : m.walkAborts = st.walkAborts) (h4 : InvB st → InvB m)
    (hP : WalkPost m out) : WalkPost st out := by
  rcases hP with ⟨a, b, c, d, e, f⟩
  exact ⟨a, fun hb => b (h4 hb), Nat.le_trans h1 c, d.trans h2, e.trans h3, f⟩

mutual

theorem extract_from_jsonld_inv (nlp : Annotator) (piny : String → String) :
    ∀ (j : Json) (st : ExtractState) (pend : List (String × String)),
      InvA st → (∀ p ∈ pend, PhFact st p) →
      WalkPost st (extract_from_jsonld nlp piny j st pend).2
  | .obj entries, st, pend, hA, hp => by
    rw [extract_from_jsonld, repack_snd]
    exact walkObjEntries_inv nlp piny entries st pend hA hp
  | .arr xs, st, pend, hA, hp => by
    rw [extract_from_jsonld, repack_snd]
    exact walkArrEntries_inv nlp piny xs st pend hA hp
  | .str s, st, pend, hA, hp => ⟨hA, fun hb => hb, Nat.le_refl _, rfl, rfl, hp⟩
  | .num n, st, pend, hA, hp => ⟨hA, fun hb => hb, Nat.le_refl _, rfl, rfl, hp⟩
  | .bool b, st, pend, hA, hp => ⟨hA, fun hb => hb, Nat.le_refl _, rfl, rfl, hp⟩
  | .null, st, pend, hA, hp => ⟨hA, fun hb => hb, Nat.le_refl _, rfl, rfl, hp⟩

theorem walkObjEntries_inv (nlp : Annotator) (piny : String → String) :
    ∀ (entries : List (String × Json)) (st : ExtractState)
      (pend : List (String × String)),
      InvA st → (∀ p ∈ pend, PhFact st p) →
      WalkPost st (walkObjEntries nlp piny entries st pend).2
  | [], st, pend, hA, hp => ⟨hA, fun hb => hb, Nat.le_refl _, rfl, rfl, hp⟩
  | (k, v) :: rest, st, pend, hA, hp => by
    cases v with
    | str s =>
      simp only [walkObjEntries]
      by_cases hk : jsonldKeyMatches k
      · rw [if_pos hk]
        cases htoks : (recordBlock nlp piny st (.jsonld k) s).2.2 with
        | nil =>
          exact ⟨hA, fun hb => hb, Nat.le_refl _, rfl, rfl, hp⟩
        | cons hd tl =>
          rcases hd with ⟨sid, t⟩
          show WalkPost st ((repack (fun es => (k, Json.str sid) :: es)
            (walkObjEntries nlp piny rest
              (recordBlock nlp piny st (BlockContext.jsonld k) s).1
              (pend ++ [((recordBlock nlp piny st (BlockContext.jsonld k) s).2.1,
                sid)]))).2)
          rw [repack_snd]
          have hrec := walkObjEntries_inv nlp piny rest
            (recordBlock nlp piny st (.jsonld k) s).1
            (pend ++ [((recordBlock nlp piny st (.jsonld k) s).2.1, sid)])
            (recordBlock_invA hA)
            (by
              intro p hpmem
              rcases List.mem_append.mp hpmem with h' | h'
              · exact recordBlock_phFact (hp p h')
              · simp at h'
                rw [h']
                exact recordBlock_new_phFact htoks)
          exact walkPost_compose (recordBlock nlp piny st (BlockContext.jsonld k) s).1
            (by simp [recordBlock]) rfl rfl (fun hb => recordBlock_invB hb) hrec
      · rw [if_neg hk]
        rw [repack_snd]
        exact walkObjEntries_inv nlp piny rest st pend hA hp
    | obj es2 =>
      simp only [walkObjEntries]
      rcases hx : extract_from_jsonld nlp piny (.obj es2) st pend with ⟨r, st2, pend2⟩
      have hv := extract_from_jsonld_inv nlp piny (.obj es2) st pend hA hp
      rw [hx] at hv
      cases r with
      | error e => exact hv
      | ok v2 =>
        rw [repack_snd]
        have hrec := walkObjEntries_inv nlp piny rest st2 pend2
          hv.1 hv.2.2.2.2.2
        exact walkPost_compose st2 hv.2.2.1 hv.2.2.2.1 hv.2.2.2.2.1 hv.2.1 hrec
    | arr xs2 =>
      simp only [walkObjEntries]
      rcases hx : extract_from_jsonld nlp piny (.arr xs2) st pend with ⟨r, st2, pend2⟩
      have hv := extract_from_jsonld_inv nlp piny (.arr xs2) st pend hA hp
      rw [hx] at hv
      cases r with
      | error e => exact hv
      | ok v2 =>
        rw [repack_snd]
        have hrec := walkObjEntries_inv nlp piny rest st2 pend2
          hv.1 hv.2.2.2.2.2
        exact walkPost_compose st2 hv.2.2.1 hv.2.2.2.1 hv.2.2.2.2.1 hv.2.1 hrec
    | num n =>
      simp only [walkObjEntries]
      rw [repack_snd]
      exact walkObjEntries_inv nlp piny rest st pend hA hp
    | bool b =>
      simp only [walkObjEntries]
      rw [repack_snd]
      exact walkObjEntries_inv nlp piny rest st pend hA hp
    | null =>
      simp only [walkObjEntries]
      rw [repack_snd]
      exact walkObjEntries_inv nlp piny rest st pend hA hp

theorem walkArrEntries_inv (nlp : Annotator) (piny : String → String) :
    ∀ (xs : List Json) (st : ExtractState) (pend : List (String × String)),
      InvA st → (∀ p ∈ pend, PhFact st p) →
      WalkPost st (walkArrEntries nlp piny xs st pend).2
  | [], st, pend, hA, hp => ⟨hA, fun hb => hb, Nat.le_refl _, rfl, rfl, hp⟩
  | x :: rest, st, pend, hA, hp => by
    rw [walkArrEntries]
    rcases hx : extract_from_jsonld nlp piny x st pend with ⟨r, st2, pend2⟩
    have hv := extract_from_jsonld_inv nlp piny x st pend hA hp
    rw [hx] at hv
    cases r with
    | error e => exact hv
    | ok x2 =>
      simp only
      rcases hy : walkArrEntries nlp piny rest st2 pend2 with ⟨r2, st3, pend3⟩
      have hw := walkArrEntries_inv nlp piny rest st2 pend2
        hv.1 hv.2.2.2.2.2
      rw [hy] at hw
      have hw' := walkPost_compose st2 hv.2.2.1 hv.2.2.2.1 hv.2.2.2.2.1 hv.2.1 hw
      cases r2 with
      | error e => exact hw'
      | ok xs2 => exact hw'

end


theorem record_commit_inv {nlp : Annotator} {piny : String → String}
    {st : ExtractState} {ctx : BlockContext} {text : String}
    {sid t : String} {tl : List (String × String)}
    (hA : InvA st)
    (he : (recordBlock nlp piny st ctx text).2.2 = (sid, t) :: tl) :
    InvA {(recordBlock nlp piny st ctx text).1 with
      phLog := (recordBlock nlp piny st ctx text).1.phLog ++
        [((recordBlock nlp piny st ctx text).2.1, sid)]} ∧
    (InvB st → InvB {(recordBlock nlp piny st ctx text).1 with
      phLog := (recordBlock nlp piny st ctx text).1.phLog ++
        [((recordBlock nlp piny st ctx text).2.1, sid)]}) := by
  have hA' := @recordBlock_invA nlp piny st ctx text hA
  refine ⟨⟨hA'.1, ?_, hA'.2.2⟩, fun hB => @recordBlock_invB nlp piny st ctx text hB⟩
  intro p hp
  rcases List.mem_append.mp hp with h' | h'
  · exact hA'.2.1 p h'
  · simp at h'
    rw [h']
    exact recordBlock_new_phFact he

theorem textNodeStep_inv {nlp : Annotator} {piny : String → String}
    {acc : HNode × ExtractState} {path : List Nat}
    (hA : InvA acc.2) :
    InvA (textNodeStep nlp piny acc path).2 ∧
    (InvB acc.2 → InvB (textNodeStep nlp piny acc path).2) ∧
    (textNodeStep nlp piny acc path).2.walkAborts = acc.2.walkAborts := by
  rcases acc with ⟨tree, st⟩
  simp only [textNodeStep]
  split
  · exact ⟨hA, fun hb => hb, rfl⟩
  · split
    · split
      · exact ⟨hA, fun hb => hb, rfl⟩
      · split
        · exact ⟨hA, fun hb => hb, rfl⟩
        · rename_i raw isC hg hcl hstrip sid t tl htoks
          have h := record_commit_inv hA htoks
          exact ⟨h.1, h.2, by simp [recordBlock]⟩
    · exact ⟨hA, fun hb => hb, rfl⟩

theorem attrStep_inv {nlp : Annotator} {piny : String → String}
    {acc : HNode × ExtractState} {pa : List Nat × String}
    (hA : InvA acc.2) :
    InvA (attrStep nlp piny acc pa).2 ∧
    (InvB acc.2 → InvB (attrStep nlp piny acc pa).2) ∧
    (attrStep nlp piny acc pa).2.walkAborts = acc.2.walkAborts := by
  rcases acc with ⟨tree, st⟩
  simp only [attrStep]
  split
  · exact ⟨hA, fun hb => hb, rfl⟩
  · split
    · exact ⟨hA, fun hb => hb, rfl⟩
    · split
      · exact ⟨hA, fun hb => hb, rfl⟩
      · split
        · exact ⟨hA, fun hb => hb, rfl⟩
        · split
          · rename_i v hattrs hlook hblocked hval htoks
            exact ⟨recordBlock_invA hA, fun hb => recordBlock_invB hb, by simp [recordBlock]⟩
          · rename_i v hattrs hlook hblocked hval sid t tl htoks
            have h := record_commit_inv hA htoks
            exact ⟨h.1, h.2, by simp [recordBlock]⟩

theorem metaStep_inv {nlp : Annotator} {piny : String → String}
    {acc : HNode × ExtractState} {path : List Nat}
    (hA : InvA acc.2) :
    InvA (metaStep nlp piny acc path).2 ∧
    (InvB acc.2 → InvB (metaStep nlp piny acc path).2) ∧
    (metaStep nlp piny acc path).2.walkAborts = acc.2.walkAborts := by
  rcases acc with ⟨tree, st⟩
  simp only [metaStep]
  split
  · exact ⟨hA, fun hb => hb, rfl⟩
  · split
    · exact ⟨hA, fun hb => hb, rfl⟩
    · split
      · split
        · exact ⟨recordBlock_invA hA, fun hb => recordBlock_invB hb, by simp [recordBlock]⟩
        · rename_i hexc hcond sid t tl htoks
          have h := record_commit_inv hA htoks
          exact ⟨h.1, h.2, by simp [recordBlock]⟩
      · exact ⟨hA, fun hb => hb, rfl⟩

theorem phase4_inv {nlp : Annotator} {piny : String → String}
    {tree : HNode} {st : ExtractState}
    (hA : InvA st) :
    InvA (phase4 nlp piny tree st).2 ∧
    (InvB st → InvB (phase4 nlp piny tree st).2) ∧
    (phase4 nlp piny tree st).2.walkAborts = st.walkAborts := by
  simp only [phase4]
  split
  · exact ⟨hA, fun hb => hb, rfl⟩
  · split
    · exact ⟨hA, fun hb => hb, rfl⟩
    · split
      · split
        · exact ⟨hA, fun hb => hb, rfl⟩
        · split
          · exact ⟨recordBlock_invA hA, fun hb => recordBlock_invB hb, by simp [recordBlock]⟩
          · rename_i sid t tl htoks
            have h := record_commit_inv hA htoks
            exact ⟨h.1, h.2, by simp [recordBlock]⟩
      · exact ⟨hA, fun hb => hb, rfl⟩

theorem scriptStep_inv {nlp : Annotator} {piny : String → String}
    {pj : String → Option Json} {dj : Json → String}
    {acc : HNode × ExtractState} {path : List Nat}
    (hA : InvA acc.2) :
    InvA (scriptStep nlp piny pj dj acc path).2 ∧
    acc.2.walkAborts ≤ (scriptStep nlp piny pj dj acc path).2.walkAborts ∧
    ((scriptStep nlp piny pj dj acc path).2.walkAborts = acc.2.walkAborts →
      InvB acc.2 → InvB (scriptStep nlp piny pj dj acc path).2) := by
  rcases acc with ⟨tree, st⟩
  simp only [scriptStep]
  split
  · exact ⟨hA, Nat.le_refl _, fun _ hb => hb⟩
  · split
    · split
      · exact ⟨hA, Nat.le_refl _, fun _ hb => hb⟩
      · rename_i d hparse
        split
        · rename_i newData st2 pend2 hwalk
          have hv := extract_from_jsonld_inv nlp piny d st [] hA
            (by intro p hp; cases hp)
          rw [hwalk] at hv
          refine ⟨⟨hv.1.1, ?_, hv.1.2.2⟩, ?_, fun _ hb => hv.2.1 hb⟩
          · intro p hp
            rcases List.mem_append.mp hp with h1 | h1
            · exact hv.1.2.1 p h1
            · exact hv.2.2.2.2.2 p h1
          · rw [hv.2.2.2.2.1]
        · rename_i e st2 pend2 hwalk
          have hv := extract_from_jsonld_inv nlp piny d st [] hA
            (by intro p hp; cases hp)
          rw [hwalk] at hv
          refine ⟨⟨hv.1.1, ?_, hv.1.2.2⟩, ?_, ?_⟩
          · intro p hp
            have hp' : p ∈ st.phLog := by
              rw [← hv.2.2.2.1]
              exact hp
            rcases hA.2.1 p hp' with ⟨m, hm, h1, h2, _⟩
            rcases hv.1.2.1 p hp with ⟨m2, _, h1', _, e2, he2, se2, hse2⟩
            have hm2 : m2 = m := blockId_inj (h1'.symm.trans h1)
            exact ⟨m, hm, h1, h2, e2, he2, se2, hse2⟩
          · show st.walkAborts ≤ st2.walkAborts + 1
            rw [hv.2.2.2.2.1]
            exact Nat.le_succ _
          · intro hcontra _
            simp only at hcontra
            rw [hv.2.2.2.2.1] at hcontra
            omega
    · exact ⟨hA, Nat.le_refl _, fun _ hb => hb⟩


/-- Folding a step that preserves `InvA` of the state component preserves
`InvA` across a whole list. -/
theorem foldl_invA {α : Type} (step : HNode × ExtractState → α → HNode × ExtractState)
    (hstep : ∀ b a, InvA b.2 → InvA (step b a).2) :
    ∀ (l : List α) (b : HNode × ExtractState), InvA b.2 → InvA (l.foldl step b).2
  | [], _, h => h
  | a :: l, b, h => foldl_invA step hstep l (step b a) (hstep b a h)

/-- If every step leaves `walkAborts` unchanged (given `InvA`), so does the fold. -/
theorem foldl_aborts_frozen {α : Type}
    (step : HNode × ExtractState → α → HNode × ExtractState)
    (hstepA : ∀ b a, InvA b.2 → InvA (step b a).2)
    (hfr : ∀ b a, InvA b.2 → (step b a).2.walkAborts = b.2.walkAborts) :
    ∀ (l : List α) (b : HNode × ExtractState), InvA b.2 →
      (l.foldl step b).2.walkAborts = b.2.walkAborts
  | [], _, _ => rfl
  | a :: l, b, h =>
    (foldl_aborts_frozen step hstepA hfr l (step b a) (hstepA b a h)).trans (hfr b a h)

/-- `walkAborts` is monotone along a fold of abort-monotone steps. -/
theorem foldl_aborts_mono {α : Type}
    (step : HNode × ExtractState → α → HNode × ExtractState)
    (hstepA : ∀ b a, InvA b.2 → InvA (step b a).2)
    (hmono : ∀ b a, InvA b.2 → b.2.walkAborts ≤ (step b a).2.walkAborts) :
    ∀ (l : List α) (b : HNode × ExtractState), InvA b.2 →
      b.2.walkAborts ≤ (l.foldl step b).2.walkAborts
  | [], _, _ => Nat.le_refl _
  | a :: l, b, h =>
    Nat.le_trans (hmono b a h)
      (foldl_aborts_mono step hstepA hmono l (step b a) (hstepA b a h))

/-- If each step preserves `InvB` whenever it does not abort, and the whole
fold performed no aborts, then `InvB` survives the fold. -/
theorem foldl_invB {α : Type}
    (step : HNode × ExtractState → α → HNode × ExtractState)
    (hstepA : ∀ b a, InvA b.2 → InvA (step b a).2)
    (hmono : ∀ b a, InvA b.2 → b.2.walkAborts ≤ (step b a).2.walkAborts)
    (hstepB : ∀ b a, InvA b.2 → (step b a).2.walkAborts = b.2.walkAborts →
      InvB b.2 → InvB (step b a).2) :
    ∀ (l : List α) (b : HNode × ExtractState), InvA b.2 →
      (l.foldl step b).2.walkAborts = b.2.walkAborts → InvB b.2 →
      InvB (l.foldl step b).2
  | [], _, _, _, hB => hB
  | a :: l, b, hA, heq, hB => by
    have h1 : b.2.walkAborts ≤ (step b a).2.walkAborts := hmono b a hA
    have hA2 := hstepA b a hA
    have h2 : (step b a).2.walkAborts ≤ (l.foldl step (step b a)).2.walkAborts :=
      foldl_aborts_mono step hstepA hmono l (step b a) hA2
    have heq0 : (l.foldl step (step b a)).2.walkAborts = b.2.walkAborts := heq
    have heq1 : (l.foldl step (step b a)).2.walkAborts = (step b a).2.walkAborts := by
      omega
    have hfr : (step b a).2.walkAborts = b.2.walkAborts := by omega
    exact foldl_invB step hstepA hmono hstepB l (step b a) hA2 heq1
      (hstepB b a hA hfr hB)

/-- The initial state satisfies both invariants. -/
theorem st0_inv : InvA ⟨1, [], [], [], [], 0⟩ ∧ InvB ⟨1, [], [], [], [], 0⟩ := by
  refine ⟨⟨List.nodup_nil, ?_, ?_⟩, List.nodup_nil, ?_⟩
  · intro p hp; cases hp
  · intro q hq; cases hq
  · intro b hb; cases hb

/-- `InvA` holds of the final state of a full run, and `InvB` holds as
well whenever the run performed no JSON-LD abort. -/
theorem run_inv (nlp : Annotator) (piny : String → String)
    (pj : String → Option Json) (dj : Json → String) (doc : HNode) :
    InvA (extract_translatable_html nlp piny pj dj doc).2 ∧
    ((extract_translatable_html nlp piny pj dj doc).2.walkAborts = 0 →
      InvB (extract_translatable_html nlp piny pj dj doc).2) := by
  have h0 := st0_inv
  set st0 : ExtractState := ⟨1, [], [], [], [], 0⟩ with hst0
  set r1 := phase1 nlp piny doc st0 with hr1
  set r2 := phase2 nlp piny r1.1 r1.2 with hr2
  set r3 := phase3 nlp piny r2.1 r2.2 with hr3
  set r4 := phase4 nlp piny r3.1 r3.2 with hr4
  have hE : extract_translatable_html nlp piny pj dj doc =
      phase5 nlp piny pj dj r4.1 r4.2 := rfl
  rw [hE]
  have hA1 : InvA r1.2 := by
    rw [hr1, phase1]
    exact foldl_invA _ (fun b a hA => (textNodeStep_inv hA).1) _ _ h0.1
  have hfr1 : r1.2.walkAborts = st0.walkAborts := by
    rw [hr1, phase1]
    exact foldl_aborts_frozen _ (fun b a hA => (textNodeStep_inv hA).1)
      (fun b a hA => (textNodeStep_inv hA).2.2) _ _ h0.1
  have hB1 : InvB r1.2 := by
    rw [hr1, phase1]
    exact foldl_invB _ (fun b a hA => (textNodeStep_inv hA).1)
      (fun b a hA => Nat.le_of_eq ((textNodeStep_inv hA).2.2).symm)
      (fun b a hA _ hB => (textNodeStep_inv hA).2.1 hB) _ _ h0.1
      (by
        rw [← phase1, ← hr1]
        exact hfr1) h0.2
  have hA2 : InvA r2.2 := by
    rw [hr2, phase2]
    exact foldl_invA _ (fun b a hA => (attrStep_inv hA).1) _ _ hA1
  have hfr2 : r2.2.walkAborts = r1.2.walkAborts := by
    rw [hr2, phase2]
    exact foldl_aborts_frozen _ (fun b a hA => (attrStep_inv hA).1)
      (fun b a hA => (attrStep_inv hA).2.2) _ _ hA1
  have hB2 : InvB r2.2 := by
    rw [hr2, phase2]
    exact foldl_invB _ (fun b a hA => (attrStep_inv hA).1)
      (fun b a hA => Nat.le_of_eq ((attrStep_inv hA).2.2).symm)
      (fun b a hA _ hB => (attrStep_inv hA).2.1 hB) _ _ hA1
      (by
        rw [← phase2, ← hr2]
        exact hfr2) hB1
  have hA3 : InvA r3.2 := by
    rw [hr3, phase3]
    exact foldl_invA _ (fun b a hA => (metaStep_inv hA).1) _ _ hA2
  have hfr3 : r3.2.walkAborts = r2.2.walkAborts := by
    rw [hr3, phase3]
    exact foldl_aborts_frozen _ (fun b a hA => (metaStep_inv hA).1)
      (fun b a hA => (metaStep_inv hA).2.2) _ _ hA2
  have hB3 : InvB r3.2 := by
    rw [hr3, phase3]
    exact foldl_invB _ (fun b a hA => (metaStep_inv hA).1)
      (fun b a hA => Nat.le_of_eq ((metaStep_inv hA).2.2).symm)
      (fun b a hA _ hB => (metaStep_inv hA).2.1 hB) _ _ hA2
      (by
        rw [← phase3, ← hr3]
        exact hfr3) hB2
  have h4 := @phase4_inv nlp piny r3.1 r3.2 hA3
  have hA4 : InvA r4.2 := by rw [hr4]; exact h4.1
  have hB4 : InvB r4.2 := by rw [hr4]; exact h4.2.1 hB3
  constructor
  · rw [phase5]
    exact foldl_invA _ (fun b a hA => (scriptStep_inv hA).1) _ _ hA4
  · intro hz
    rw [phase5] at hz ⊢
    have hmono : r4.2.walkAborts ≤
        (((elemPaths r4.1).filter (fun p => isJsonLdScript r4.1 p)).foldl
          (scriptStep nlp piny pj dj) (r4.1, r4.2)).2.walkAborts :=
      foldl_aborts_mono _ (fun b a hA => (scriptStep_inv hA).1)
        (fun b a hA => (scriptStep_inv hA).2.1) _ _ hA4
    have heq : (((elemPaths r4.1).filter (fun p => isJsonLdScript r4.1 p)).foldl
        (scriptStep nlp piny pj dj) (r4.1, r4.2)).2.walkAborts =
        r4.2.walkAborts := by omega
    exact foldl_invB _ (fun b a hA => (scriptStep_inv hA).1)
      (fun b a hA => (scriptStep_inv hA).2.1)
      (fun b a hA hfr hB => (scriptStep_inv hA).2.2 hfr hB) _ _ hA4 heq hB4



/-! ## Concrete fixtures for witnesses and counterexamples -/

/-- A one-sentence, one-token annotator: the whole text is one sentence
whose single token is the text itself. -/
def A1 : Annotator := fun t => [⟨t, [⟨t, "X", ""⟩]⟩]

/-- A transliterator stub (never consulted on Latin-only fixtures). -/
def pinyD : String → String := fun _ => ""

/-- A JSON parser stub that fails on every input. -/
def pjNone : String → Option Json := fun _ => none

/-- A JSON serializer stub. -/
def djD : Json → String := fun _ => "DUMPED"

/-- An annotator that returns no sentences for any input. -/
def nlpEmpty : Annotator := fun _ => []

/-- An annotator that fails to segment exactly the text `"B"`. -/
def nlp9 : Annotator := fun t => if t = "B" then [] else [⟨t, [⟨t, "X", ""⟩]⟩]

/-- Parser for the two-payload JSON-LD fixture: `"P1"` holds a payload
whose second value segments to nothing, `"P2"` a clean payload. -/
def pj2 : String → Option Json := fun s =>
  if s = "P1" then some (.obj [("name", .str "A"), ("headline", .str "B")])
  else if s = "P2" then some (.obj [("name", .str "C")])
  else none

/-- `<html><body><p>Hi</p></body></html>`. -/
def doc8 : HNode :=
  .elem "[document]" [] [.elem "html" [] [.elem "body" [] [.elem "p" [] [.text "Hi"]]]]

/-- `<body translate="no"><span translate="yes">Hello world</span></body>`. -/
def doc2 : HNode :=
  .elem "[document]" [] [.elem "html" [] [.elem "body" [("translate","no")]
    [.elem "span" [("translate","yes")] [.text "Hello world"]]]]

/-- `<body><img alt="Hi"></body>`. -/
def docAttr : HNode :=
  .elem "[document]" [] [.elem "html" [] [.elem "body" [] [.elem "img" [("alt","Hi")] []]]]

/-- `<head>` with two `application/ld+json` scripts holding `"P1"` and `"P2"`. -/
def docJ2 : HNode :=
  .elem "[document]" [] [.elem "html" [] [.elem "head" []
    [.elem "script" [("type","application/ld+json")] [.text "P1"],
     .elem "script" [("type","application/ld+json")] [.text "P2"]]]]

/-- The initial extraction state: `block_counter = 1`, empty outputs. -/
def st0ex : ExtractState := ⟨1, [], [], [], [], 0⟩

/-! ## Claim C1: empty segmentation -/

/-- C1, counterexample: on `<img alt="Hi">` with an annotator that returns
zero sentences, the attribute loop still records `BLOCK_1` in the
structured map (with an empty token table) and advances the block counter,
so "no block is recorded" fails for attribute fragments. -/
theorem c1_counterexample :
    nlpEmpty "Hi" = [] ∧
    (extract_translatable_html nlpEmpty pinyD pjNone djD docAttr).2.structured =
      [("BLOCK_1", ⟨.attr "alt", []⟩)] ∧
    (extract_translatable_html nlpEmpty pinyD pjNone djD docAttr).2.counter = 2 :=
  ⟨rfl, by decide, by decide⟩

/-- C1, amended: when segmentation yields zero sentences, the document
tree is always left unmodified at the fragment's location — for free text
nodes the step is a complete no-op, while the attribute, meta and title
steps may still record an empty block (see the counterexample). -/
theorem c1_empty_segmentation (nlp : Annotator) (piny : String → String)
    (h : ∀ t, nlp t = []) :
    (∀ acc path, textNodeStep nlp piny acc path = acc) ∧
    (∀ acc pa, (attrStep nlp piny acc pa).1 = acc.1) ∧
    (∀ acc path, (metaStep nlp piny acc path).1 = acc.1) ∧
    (∀ tree st, (phase4 nlp piny tree st).1 = tree) := by
  have hrec : ∀ st ctx text, (recordBlock nlp piny st ctx text).2.2 = [] := by
    intro st ctx text
    simp [recordBlock, process_text_block, h, ptbAux]
  refine ⟨?_, ?_, ?_, ?_⟩
  · intro acc path
    rcases acc with ⟨tree, st⟩
    simp only [textNodeStep]
    split
    · rfl
    · split
      · split
        · rfl
        · split
          · rfl
          · rename_i htoks
            rw [hrec] at htoks
            cases htoks
      · rfl
  · intro acc pa
    rcases acc with ⟨tree, st⟩
    simp only [attrStep]
    split
    · rfl
    · split
      · rfl
      · split
        · rfl
        · split
          · rfl
          · split
            · rfl
            · rename_i htoks
              rw [hrec] at htoks
              cases htoks
  · intro acc path
    rcases acc with ⟨tree, st⟩
    simp only [metaStep]
    split
    · rfl
    · split
      · rfl
      · split
        · split
          · rfl
          · rename_i htoks
            rw [hrec] at htoks
            cases htoks
        · rfl
  · intro tree st
    simp only [phase4]
    split
    · rfl
    · split
      · rfl
      · split
        · split
          · rfl
          · split
            · rfl
            · rename_i htoks
              rw [hrec] at htoks
              cases htoks
        · rfl

/-- C1, witness: the empty annotator leaves a text-node step untouched. -/
theorem c1_empty_segmentation_witness :
    textNodeStep nlpEmpty pinyD (doc8, st0ex) [0, 0, 0, 0] = (doc8, st0ex) :=
  (c1_empty_segmentation nlpEmpty pinyD (fun _ => rfl)).1 (doc8, st0ex) [0, 0, 0, 0]

/-! ## Claim C2: the `translate` attribute override -/

/-- C2, counterexample: with `<body translate="no"><span translate="yes">`
an ancestor explicitly declares `no`, yet the fragment under the nearer
`yes` is classified translatable and the pipeline extracts it as
`BLOCK_1` — the override is decided by the nearest declaring ancestor,
not by any ancestor. -/
theorem c2_counterexample :
    attrGet [("translate", "no")] "translate" = "no" ∧
    is_translatable_text
      [⟨"span", [("translate", "yes")], "Hello world"⟩,
       ⟨"body", [("translate", "no")], ""⟩] "Hello world" false = true ∧
    (extract_translatable_html A1 pinyD pjNone djD doc2).2.blockLog = ["BLOCK_1"] :=
  ⟨by decide, by decide, by decide⟩

/-- C2, amended: the *nearest* ancestor with an explicit `translate`
override decides: `no` rejects the fragment outright; `yes` accepts it —
independently of the tag whitelist — provided the stripped text is
nonempty and the content checks (symbol/math/markup) do not fire. -/
theorem c2_translate_override (ancs : List ElemView) (raw : String) (isC : Bool) :
    (findTranslateOverride ancs = some "no" →
      is_translatable_text ancs raw isC = false) ∧
    (findTranslateOverride ancs = some "yes" → pyStrip raw ≠ "" →
      contentReject ancs (pyStrip raw) = false →
      is_translatable_text ancs raw isC = true) := by
  constructor
  · intro hno
    simp only [is_translatable_text, hno]
    split
    · rfl
    · split
      · rfl
      · simp
  · intro hyes hne hcr
    simp only [is_translatable_text, hyes]
    rw [if_neg hne, if_neg (by simp [hcr]), if_neg (by simp)]
    rfl

/-- C2, witness: a nearest-`no` chain rejects; a nearest-`yes` chain under
a non-whitelisted parent accepts. -/
theorem c2_translate_override_witness :
    is_translatable_text [⟨"div", [("translate", "no")], "x"⟩] "Hello" false = false ∧
    is_translatable_text
      [⟨"canvas", [("translate", "yes")], "Hello world"⟩] "Hello world" false = true :=
  ⟨(c2_translate_override [⟨"div", [("translate", "no")], "x"⟩] "Hello" false).1
      (by decide),
   (c2_translate_override [⟨"canvas", [("translate", "yes")], "Hello world"⟩]
      "Hello world" false).2 (by decide) (by decide) (by decide)⟩

/-! ## Claim C3: placeholder referential integrity -/

/-- C3: every placeholder written into the mutated tree (text node,
attribute, meta content, title, or committed JSON-LD value — all recorded
in `phLog`) is its block's first sentence identifier `{block}_S1`, and
`S1` resolves to a sentence entry of that block in the structured map. -/
theorem c3_placeholder_integrity (nlp : Annotator) (piny : String → String)
    (pj : String → Option Json) (dj : Json → String) (doc : HNode) :
    ∀ p ∈ (extract_translatable_html nlp piny pj dj doc).2.phLog,
      p.2 = p.1 ++ "_S1" ∧
      (∃ m, p.1 = blockId m) ∧
      ∃ e, alookup (extract_translatable_html nlp piny pj dj doc).2.structured p.1 =
          some e ∧
        ∃ se, alookup e.tokens "S1" = some se := by
  intro p hp
  rcases (run_inv nlp piny pj dj doc).1.2.1 p hp with ⟨m, _, h1, h2, e, he, se, hse⟩
  exact ⟨h2, ⟨m, h1⟩, e, he, se, hse⟩

/-- C3, witness: the single placeholder of the `<p>Hi</p>` run. -/
theorem c3_placeholder_integrity_witness :
    ("BLOCK_1", "BLOCK_1_S1") ∈
      (extract_translatable_html A1 pinyD pjNone djD doc8).2.phLog ∧
    ((("BLOCK_1", "BLOCK_1_S1") : String × String).2 =
        (("BLOCK_1", "BLOCK_1_S1") : String × String).1 ++ "_S1" ∧
      (∃ m, (("BLOCK_1", "BLOCK_1_S1") : String × String).1 = blockId m) ∧
      ∃ e, alookup (extract_translatable_html A1 pinyD pjNone djD doc8).2.structured
          (("BLOCK_1", "BLOCK_1_S1") : String × String).1 = some e ∧
        ∃ se, alookup e.tokens "S1" = some se) :=
  ⟨by decide,
   c3_placeholder_integrity A1 pinyD pjNone djD doc8 ("BLOCK_1", "BLOCK_1_S1")
     (by decide)⟩



/-- The state after the first JSON-LD payload of the `docJ2` fixture
records its `name` value and then aborts on `headline`. -/
def stA : ExtractState :=
  ⟨2, [("BLOCK_1", ⟨.jsonld "name", [("S1", ⟨"A", [("W1", ⟨"A", "X", none, none⟩)]⟩)]⟩)],
   [("BLOCK_1_S1", "A"), ("BLOCK_1_S1_W1", "A")],
   ["BLOCK_1"], [], 0⟩

/-! ## Claim C6: identifier uniqueness -/

/-- C6, counterexample: in the two-payload fixture the first payload
aborts after recording `BLOCK_1`, the counter reverts to its pre-payload
value, and the second payload records a fresh block under the same
identifier `BLOCK_1` — two recorded blocks share an identifier. -/
theorem c6_counterexample :
    (extract_translatable_html nlp9 pinyD pj2 djD docJ2).2.blockLog =
      ["BLOCK_1", "BLOCK_1"] ∧
    ¬ (extract_translatable_html nlp9 pinyD pj2 djD docJ2).2.blockLog.Nodup :=
  ⟨by decide, by decide⟩

/-- C6, amended: in a run with no JSON-LD abort no two recorded blocks
share an identifier; and unconditionally the structured map's block keys
are distinct, each block's sentence keys are distinct of the form `S{i}`,
and each sentence's word keys are distinct of the form `W{j}`. -/
theorem c6_identifier_uniqueness (nlp : Annotator) (piny : String → String)
    (pj : String → Option Json) (dj : Json → String) (doc : HNode) :
    ((extract_translatable_html nlp piny pj dj doc).2.walkAborts = 0 →
      (extract_translatable_html nlp piny pj dj doc).2.blockLog.Nodup ∧
      ∀ b ∈ (extract_translatable_html nlp piny pj dj doc).2.blockLog,
        ∃ m, b = blockId m) ∧
    (keysOf (extract_translatable_html nlp piny pj dj doc).2.structured).Nodup ∧
    ∀ q ∈ (extract_translatable_html nlp piny pj dj doc).2.structured,
      (keysOf q.2.tokens).Nodup ∧
      ∀ sk se, (sk, se) ∈ q.2.tokens →
        (∃ i, sk = sentKey i) ∧ (keysOf se.words).Nodup ∧
        ∀ wk w, (wk, w) ∈ se.words → ∃ j, wk = wordKey j := by
  have h := run_inv nlp piny pj dj doc
  refine ⟨?_, h.1.1, ?_⟩
  · intro hz
    rcases h.2 hz with ⟨hnd, hb⟩
    refine ⟨hnd, fun b hbm => ?_⟩
    rcases hb b hbm with ⟨m, _, hbid⟩
    exact ⟨m, hbid⟩
  · intro q hq
    rcases h.1.2.2 q hq with ⟨_, htok, hsent⟩
    refine ⟨htok, ?_⟩
    intro sk se hmem
    rcases hsent sk se hmem with ⟨hwnd, hi, _, hw⟩
    exact ⟨hi, hwnd, fun wk w hwm => (hw wk w hwm).1⟩

/-- C6, witness: uniqueness instantiated on the abort-free `<p>Hi</p>` run. -/
theorem c6_identifier_uniqueness_witness :
    (extract_translatable_html A1 pinyD pjNone djD doc8).2.blockLog.Nodup ∧
    (∃ i, "S1" = sentKey i) ∧ (∃ j, "W1" = wordKey j) := by
  have h := c6_identifier_uniqueness A1 pinyD pjNone djD doc8
  have h3 := h.2.2
    ("BLOCK_1", ⟨.tag "p", [("S1", ⟨"Hi", [("W1", ⟨"Hi", "X", none, none⟩)]⟩)]⟩)
    (by decide)
  have h4 := h3.2 "S1" ⟨"Hi", [("W1", ⟨"Hi", "X", none, none⟩)]⟩ (by decide)
  exact ⟨(h.1 (by decide)).1, h4.1,
    h4.2.2 "W1" ⟨"Hi", "X", none, none⟩ (by decide)⟩

/-! ## Claim C8: flat-map coverage -/

/-- C8, counterexample: the run on `<p>Hi</p>` records `BLOCK_1` in the
structured map, but the flat map has no entry under the key `BLOCK_1` —
block identifiers are never flat-map keys (only `{block}_S{i}` and
`{block}_S{i}_W{j}` are). -/
theorem c8_counterexample :
    "BLOCK_1" ∈ keysOf (extract_translatable_html A1 pinyD pjNone djD doc8).2.structured ∧
    alookup (extract_translatable_html A1 pinyD pjNone djD doc8).2.flat "BLOCK_1" = none :=
  ⟨by decide, by decide⟩

/-- C8, amended: the flat map covers every *sentence* and *word*
identifier of the structured map (mapping each to its raw text), but not
the block identifiers themselves (see the counterexample). -/
theorem c8_flat_coverage (nlp : Annotator) (piny : String → String)
    (pj : String → Option Json) (dj : Json → String) (doc : HNode) :
    ∀ q ∈ (extract_translatable_html nlp piny pj dj doc).2.structured,
      ∀ sk se, (sk, se) ∈ q.2.tokens →
        alookup (extract_translatable_html nlp piny pj dj doc).2.flat
          (q.1 ++ "_" ++ sk) = some se.text ∧
        ∀ wk w, (wk, w) ∈ se.words →
          alookup (extract_translatable_html nlp piny pj dj doc).2.flat
            (q.1 ++ "_" ++ sk ++ "_" ++ wk) = some w.text := by
  intro q hq sk se hmem
  rcases ((run_inv nlp piny pj dj doc).1.2.2 q hq).2.2 sk se hmem with
    ⟨_, _, hflat, hw⟩
  exact ⟨hflat, fun wk w hwm => (hw wk w hwm).2⟩

/-- C8, witness: sentence and word coverage on the `<p>Hi</p>` run. -/
theorem c8_flat_coverage_witness :
    alookup (extract_translatable_html A1 pinyD pjNone djD doc8).2.flat
      ("BLOCK_1" ++ "_" ++ "S1") = some "Hi" ∧
    alookup (extract_translatable_html A1 pinyD pjNone djD doc8).2.flat
      ("BLOCK_1" ++ "_" ++ "S1" ++ "_" ++ "W1") = some "Hi" := by
  have h := c8_flat_coverage A1 pinyD pjNone djD doc8
    ("BLOCK_1", ⟨.tag "p", [("S1", ⟨"Hi", [("W1", ⟨"Hi", "X", none, none⟩)]⟩)]⟩)
    (by decide) "S1" ⟨"Hi", [("W1", ⟨"Hi", "X", none, none⟩)]⟩ (by decide)
  exact ⟨h.1, h.2 "W1" ⟨"Hi", "X", none, none⟩ (by decide)⟩

/-! ## Claim C9: non-atomic payload abort -/

/-- C9: (a) inside a payload, a matched string value whose segmentation
yields zero sentences makes the object walk return an error immediately,
keeping the state as it stood before that value (so everything recorded
by earlier values of the payload survives in the maps); (b) at the script
tag the error is caught: the tree is returned unchanged (the original
JSON text stays), the maps keep the walk state, the abort counter rises,
and the block counter reverts to its pre-payload value. -/
theorem c9_payload_abort (nlp : Annotator) (piny : String → String)
    (pj : String → Option Json) (dj : Json → String) :
    (∀ k s rest st pend, jsonldKeyMatches k = true →
      (recordBlock nlp piny st (.jsonld k) s).2.2 = [] →
      walkObjEntries nlp piny ((k, Json.str s) :: rest) st pend =
        (.error (), st, pend)) ∧
    (∀ acc path n s sp d st2 pend2,
      getNode? acc.1 path = some n →
      singleString n = some s → singleStringPath n = some sp →
      pj (pyStrip s) = some d →
      extract_from_jsonld nlp piny d acc.2 [] = (.error (), st2, pend2) →
      scriptStep nlp piny pj dj acc path =
        (acc.1, { st2 with
                  counter := acc.2.counter
                  walkAborts := st2.walkAborts + 1 })) := by
  constructor
  · intro k s rest st pend hk htoks
    simp only [walkObjEntries, hk, if_true, htoks]
  · intro acc path n s sp d st2 pend2 hn hs hsp hpj hwalk
    rcases acc with ⟨tree, st⟩
    simp only [scriptStep, hn, hs, hsp, hpj, hwalk]

/-- C9, witness: the aborting payload of the `docJ2` fixture, at the walk
level and at the script-step level. -/
theorem c9_payload_abort_witness :
    walkObjEntries nlp9 pinyD [("headline", Json.str "B")] st0ex [] =
      (.error (), st0ex, []) ∧
    scriptStep nlp9 pinyD pj2 djD (docJ2, st0ex) [0, 0, 0] =
      (docJ2, { stA with counter := 1, walkAborts := 1 }) := by
  have h := c9_payload_abort nlp9 pinyD pj2 djD
  refine ⟨h.1 "headline" "B" [] st0ex [] (by decide) (by decide), ?_⟩
  exact h.2 (docJ2, st0ex) [0, 0, 0]
    (.elem "script" [("type", "application/ld+json")] [.text "P1"]) "P1" [0]
    (.obj [("name", .str "A"), ("headline", .str "B")]) stA
    [("BLOCK_1", "BLOCK_1_S1")] rfl rfl rfl rfl rfl



/-- The state after the walk of the C5 payload
`{"name": "Acme Corp", "uploadDate": "2024-01-01"}` records its single
matched value. -/
def stAcme : ExtractState :=
  ⟨2, [("BLOCK_1",
        ⟨.jsonld "name", [("S1", ⟨"Acme Corp", [("W1", ⟨"Acme Corp", "X", none, none⟩)]⟩)]⟩)],
   [("BLOCK_1_S1", "Acme Corp"), ("BLOCK_1_S1_W1", "Acme Corp")],
   ["BLOCK_1"], [], 0⟩

/-- C5: the JSON-LD key condition of `extract_from_jsonld` agrees with
the spec's reading on every key — lowercase(k) outside the exclusion set,
and lowercase(k) in the translatable set or (k not starting with `@` and
lowercase(k) free of `url`/`date`/`time`/`type`) — and on the payload
`{"name": "Acme Corp", "uploadDate": "2024-01-01"}` exactly the value of
`name` is extracted and replaced while `uploadDate` is left untouched. -/
theorem c5_jsonld_key_filter :
    (∀ key, jsonldKeyMatches key = specJsonldKeyMatches key) ∧
    extract_from_jsonld A1 pinyD
        (.obj [("name", .str "Acme Corp"), ("uploadDate", .str "2024-01-01")])
        st0ex [] =
      (.ok (.obj [("name", .str "BLOCK_1_S1"), ("uploadDate", .str "2024-01-01")]),
       stAcme, [("BLOCK_1", "BLOCK_1_S1")]) :=
  ⟨jsonldKeyMatches_eq_spec, rfl⟩

/-! ## Claim C10: `count_languages.py` -/

mutual

/-- Structural JSON equality, the equality Python applies to dict keys in
`count_languages.py` (`language` values become keys of `language_counts`). -/
def jsonEqb : Json → Json → Bool
  | .str a, .str b => a = b
  | .num a, .num b => a = b
  | .bool a, .bool b => a = b
  | .null, .null => true
  | .arr xs, .arr ys => jsonListEqb xs ys
  | .obj xs, .obj ys => jsonObjEqb xs ys
  | _, _ => false

def jsonListEqb : List Json → List Json → Bool
  | [], [] => true
  | x :: xs, y :: ys => jsonEqb x y && jsonListEqb xs ys
  | _, _ => false

def jsonObjEqb : List (String × Json) → List (String × Json) → Bool
  | [], [] => true
  | (k1, x) :: xs, (k2, y) :: ys => k1 = k2 && jsonEqb x y && jsonObjEqb xs ys
  | _, _ => false

end

/-- Lookup in `language_counts` keyed by JSON values. -/
def jlookup (l : List (Json × Nat)) (k : Json) : Option Nat :=
  match l with
  | [] => none
  | (k2, v) :: rest => if jsonEqb k2 k then some v else jlookup rest k

/-- In-place replacement of the first matching key. -/
def jreplace : List (Json × Nat) → Json → Nat → List (Json × Nat)
  | [], _, _ => []
  | (k2, v) :: rest, k, n =>
    if jsonEqb k2 k then (k2, n) :: rest else (k2, v) :: jreplace rest k n

/-- `if language not in language_counts: language_counts[language] = 0;
language_counts[language] += 1` — a fresh key is appended (Python dicts
keep insertion order), an existing one is bumped in place. -/
def jbump (l : List (Json × Nat)) (k : Json) : List (Json × Nat) :=
  match jlookup l k with
  | none => l ++ [(k, 1)]
  | some n => jreplace l k (n + 1)

/-- `word_data.get('language', 'unknown')`: on a mapping, the stored value
or the default; on anything else Python's `.get` raises (modelled `none`). -/
def wordLang (wd : Json) : Option Json :=
  match wd with
  | .obj es => some ((alookup es "language").getD (.str "unknown"))
  | _ => none

/-- The inner loop over `sentence_data['words'].items()` (only the global
`language_counts` accumulator is modelled; the per-block distribution dict
is filled from the same `language` values and never feeds back into it). -/
def countWordsC10 (counts : List (Json × Nat)) :
    List (String × Json) → Option (List (Json × Nat))
  | [] => some counts
  | (_, wd) :: rest =>
    match wordLang wd with
    | none => none
    | some lang => countWordsC10 (jbump counts lang) rest

/-- The loop over `block_data['tokens'].items()`: sentences without a
`words` mapping are skipped (`'words' not in sentence_data` — for a
string that test is a substring test, anything else raises). -/
def countSentsC10 (counts : List (Json × Nat)) :
    List (String × Json) → Option (List (Json × Nat))
  | [] => some counts
  | (_, sd) :: rest =>
    match sd with
    | .obj ses =>
      (match alookup ses "words" with
       | none => countSentsC10 counts rest
       | some (.obj ws) =>
         (match countWordsC10 counts ws with
          | none => none
          | some c2 => countSentsC10 c2 rest)
       | some _ => none)
    | .str s => if strContains s "words" then none else countSentsC10 counts rest
    | _ => none

/-- The outer loop over `data.items()`: blocks without a `tokens` mapping
are skipped. -/
def countBlocksC10 (counts : List (Json × Nat)) :
    List (String × Json) → Option (List (Json × Nat))
  | [] => some counts
  | (_, bd) :: rest =>
    match bd with
    | .obj es =>
      (match alookup es "tokens" with
       | none => countBlocksC10 counts rest
       | some (.obj toks) =>
         (match countSentsC10 counts toks with
          | none => none
          | some c2 => countBlocksC10 c2 rest)
       | some _ => none)
    | .str s => if strContains s "tokens" then none else countBlocksC10 counts rest
    | _ => none

/-- `count_language_tags` of `count_languages.py` (lines 3–38), as the
global `language_counts` table it builds from the loaded structured JSON;
`none` models an uncaught exception. -/
def count_language_tags (data : Json) : Option (List (Json × Nat)) :=
  match data with
  | .obj entries => countBlocksC10 [] entries
  | _ => none

/-- The JSON word record of `process_text_block` (lines 233–238): fields
`text`, `pos`, `ent`, `pinyin` — never `language`. -/
def encodeWord (w : Word) : Json :=
  .obj [("text", .str w.text), ("pos", .str w.pos),
        ("ent", match w.ent with | some e => .str e | none => .null),
        ("pinyin", match w.pinyin with | some p => .str p | none => .null)]

/-- The JSON sentence record (line 226). -/
def encodeSent (se : SentEntry) : Json :=
  .obj [("text", .str se.text),
        ("words", .obj (se.words.map (fun p => (p.1, encodeWord p.2))))]

/-- The context field stored with a block (`{"tag": ...}` etc.). -/
def encodeCtxEntry : BlockContext → String × Json
  | .tag n => ("tag", .str n)
  | .attr n => ("attr", .str n)
  | .meta n => ("meta", .str n)
  | .jsonld k => ("jsonld", .str k)

/-- The JSON block record written to `translatable_structured.json`. -/
def encodeBlock (e : BlockEntry) : Json :=
  .obj [encodeCtxEntry e.context,
        ("tokens", .obj (e.tokens.map (fun p => (p.1, encodeSent p.2))))]

/-- The whole structured output file. -/
def encodeStructured (l : List (String × BlockEntry)) : Json :=
  .obj (l.map (fun p => (p.1, encodeBlock p.2)))

/-- The number of word records in a structured map. -/
def totalWords (l : List (String × BlockEntry)) : Nat :=
  (l.map (fun p => (p.2.tokens.map (fun q => q.2.words.length)).sum)).sum

/-- The `language_counts` table after `n` words, all `'unknown'`. -/
def ucounts (n : Nat) : List (Json × Nat) :=
  if n = 0 then [] else [(Json.str "unknown", n)]

theorem jsonEqb_unknown : jsonEqb (Json.str "unknown") (Json.str "unknown") = true := by
  simp [jsonEqb]

theorem jbump_unknown (n : Nat) :
    jbump (ucounts n) (Json.str "unknown") = ucounts (n + 1) := by
  cases n with
  | zero => simp [ucounts, jbump, jlookup]
  | succ m =>
    simp [ucounts, jbump, jlookup, jreplace, jsonEqb_unknown, Nat.succ_ne_zero]

theorem alookup_cons {α : Type} (p : String × α) (rest : List (String × α)) (key : String) :
    alookup (p :: rest) key = if p.1 = key then some p.2 else alookup rest key := by
  rcases p with ⟨k, v⟩
  rfl

theorem wordLang_enc (w : Word) : wordLang (encodeWord w) = some (Json.str "unknown") := by
  simp only [wordLang, encodeWord, alookup]
  rw [if_neg (by decide), if_neg (by decide), if_neg (by decide), if_neg (by decide)]
  rfl

theorem countWords_enc (ws : List (String × Word)) :
    ∀ n, countWordsC10 (ucounts n) (ws.map (fun p => (p.1, encodeWord p.2))) =
      some (ucounts (n + ws.length)) := by
  induction ws with
  | nil => intro n; simp [countWordsC10]
  | cons w rest ih =>
    intro n
    simp only [List.map_cons, countWordsC10, wordLang_enc, jbump_unknown, ih]
    simp only [List.length_cons]
    rw [Nat.add_assoc, Nat.add_comm 1 rest.length]

theorem countSentsC10_cons_enc (c : List (Json × Nat)) (sid : String) (se : SentEntry)
    (rest : List (String × Json)) :
    countSentsC10 c ((sid, encodeSent se) :: rest) =
      (match countWordsC10 c (se.words.map (fun p => (p.1, encodeWord p.2))) with
       | none => none
       | some c2 => countSentsC10 c2 rest) := by
  simp only [countSentsC10, encodeSent, alookup]
  simp

theorem countSents_enc (toks : List (String × SentEntry)) :
    ∀ n, countSentsC10 (ucounts n) (toks.map (fun p => (p.1, encodeSent p.2))) =
      some (ucounts (n + (toks.map (fun q => q.2.words.length)).sum)) := by
  induction toks with
  | nil => intro n; simp [countSentsC10]
  | cons t rest ih =>
    intro n
    rw [List.map_cons, countSentsC10_cons_enc, countWords_enc t.2.words n]
    simp only [ih]
    simp only [List.map_cons, List.sum_cons]
    rw [Nat.add_assoc]

theorem countBlocksC10_cons_enc (c : List (Json × Nat)) (bid : String) (e : BlockEntry)
    (rest : List (String × Json)) :
    countBlocksC10 c ((bid, encodeBlock e) :: rest) =
      (match countSentsC10 c (e.tokens.map (fun p => (p.1, encodeSent p.2))) with
       | none => none
       | some c2 => countBlocksC10 c2 rest) := by
  have hctx : (encodeCtxEntry e.context).1 ≠ "tokens" := by
    cases e.context <;> simp [encodeCtxEntry]
  simp only [countBlocksC10, encodeBlock, alookup_cons]
  rw [if_neg hctx]
  simp

theorem countBlocks_enc (l : List (String × BlockEntry)) :
    ∀ n, countBlocksC10 (ucounts n) (l.map (fun p => (p.1, encodeBlock p.2))) =
      some (ucounts (n + totalWords l)) := by
  induction l with
  | nil => intro n; simp [countBlocksC10, totalWords]
  | cons b rest ih =>
    intro n
    rw [List.map_cons, countBlocksC10_cons_enc, countSents_enc b.2.tokens n]
    simp only [ih]
    simp only [totalWords, List.map_cons, List.sum_cons]
    rw [Nat.add_assoc]

/-- C10: on any structured map produced by `step1_extract` — whose word
records carry only `text`, `pos`, `ent`, `pinyin` and never `language` —
`count_language_tags` classifies every word as `unknown`: the global
count table is empty when there are no words and otherwise the single
entry `("unknown", total number of words)`. -/
theorem c10_unknown_language (nlp : Annotator) (piny : String → String)
    (pj : String → Option Json) (dj : Json → String) (doc : HNode) :
    count_language_tags
        (encodeStructured (extract_translatable_html nlp piny pj dj doc).2.structured) =
      some (if totalWords (extract_translatable_html nlp piny pj dj doc).2.structured = 0
            then []
            else [(Json.str "unknown",
                   totalWords (extract_translatable_html nlp piny pj dj doc).2.structured)]) := by
  have h := countBlocks_enc (extract_translatable_html nlp piny pj dj doc).2.structured 0
  simp only [count_language_tags, encodeStructured]
  rw [show ucounts 0 = [] from rfl] at h
  rw [h]
  simp [ucounts]
